import Mathlib

/-!
SimpleVector: a shallow embedding of `simple_vector.h`

The container of `simple_vector.h` is embedded as a record of its three data
members (`smart_ptr_`, `size_`, `capacity_`) and each member function as a
function on that record.

Conventions of the embedding:

* an iterator (`Type*`) is the offset of the pointer from `begin()`, a `Nat`;
* a slot of the buffer holds `some x` once a value `x` has been assigned to it
  and `none` while it still holds the unspecified content of a fresh
  allocation;
* moving an element is modelled as copying it (as for scalar `Type`), so a
  moved-from slot keeps its value;
* every access to the buffer is checked against the number of slots that were
  allocated: an access outside of it is undefined behaviour in C++ and is
  reported as `Failure.out_of_bounds`;
* an algorithm that compares elements needs assigned values: a comparison that
  reads a slot without one has no specified outcome and is reported as
  `Failure.indeterminate_read`;
* a parameter of reference type (`const Type&`, `Type&&`) is a `Ref`: it is bound either
  to an object outside of the buffer of the vector or to an element of the vector
  itself, and it is read at the statement of the source that reads it, from the buffer
  as it is then; once the buffer it points into has been released, reading it is
  undefined behaviour and is reported as `Failure.use_after_free`;
* `size_t` is unsigned: `--size_` on `0` wraps around to `SIZE_MAX`.  Sums and
  doublings of sizes are taken in `Nat`: they cannot overflow as long as
  `size_ <= capacity_` and the buffer owns `capacity_` slots, since a buffer of
  `2^63` slots cannot be allocated.
-/

namespace SV

/-- What can go wrong while a member function runs. -/
inductive Failure where
  /-- access to slot `index` of a buffer that owns `slots` slots (undefined behaviour) -/
  | out_of_bounds (index slots : Nat)
  /-- a range `[first, last)` with `last < first` handed to a standard algorithm (undefined behaviour) -/
  | invalid_range (first last : Nat)
  /-- the exception `std::out_of_range` thrown by `At` -/
  | out_of_range
  /-- a comparison that reads slot `index` while it holds no assigned value: the outcome is
  unspecified -/
  | indeterminate_read (index : Nat)
  /-- a read through a reference to slot `index` of a buffer that has been released
  (undefined behaviour) -/
  | use_after_free (index : Nat)
  deriving DecidableEq

/-- The largest value of `size_t` (64 bit). -/
def SIZE_MAX : Nat := 2 ^ 64 - 1

/-- The decrement `--n` of an unsigned `size_t`: `0` wraps around to `SIZE_MAX`. -/
def decr (n : Nat) : Nat := if n = 0 then SIZE_MAX else n - 1

/-- Modelled from the spec: `array_ptr.h` (the class `ArrayPtr<Type>`) is not among the
sources.  A buffer owns a fixed number of slots of raw storage; the content of a slot
that was never assigned is unspecified (`none`). -/
abbrev ArrayPtr (T : Type) := List (Option T)

namespace ArrayPtr

variable {T : Type}

/-- Modelled from the spec: `ArrayPtr(n)` allocates storage for exactly `n` elements
(`n = 0` allocates nothing); the slots hold no specified value yet. -/
def alloc (n : Nat) : ArrayPtr T := List.replicate n none

/-- Modelled from the spec: the read `a[i]`, unchecked in C++ and undefined outside the
allocated slots. -/
def load (a : ArrayPtr T) (i : Nat) : Except Failure (Option T) :=
  if h : i < a.length then .ok (a.get ⟨i, h⟩) else .error (.out_of_bounds i a.length)

/-- Modelled from the spec: the write `a[i] = x`, unchecked in C++ and undefined outside
the allocated slots. -/
def store (a : ArrayPtr T) (i : Nat) (x : Option T) : Except Failure (ArrayPtr T) :=
  if i < a.length then .ok (a.set i x) else .error (.out_of_bounds i a.length)

/-- The value `*it` of slot `i` where an algorithm compares elements: the slot has to
hold an assigned value. -/
def value (a : ArrayPtr T) (i : Nat) : Except Failure T :=
  match a.load i with
  | .error e => .error e
  | .ok none => .error (.indeterminate_read i)
  | .ok (some x) => .ok x

/-- Modelled from the spec: the move assignment `self = std::move(other)` of `ArrayPtr`
(`array_ptr.h` is not among the sources): ownership of the storage of `other` is
transferred to `self` and `other` is left owning nothing.  The result is the pair of
`self` and `other` after the assignment. -/
def move_assign (_self other : ArrayPtr T) : ArrayPtr T × ArrayPtr T :=
  (other, alloc 0)

end ArrayPtr

/-- What a parameter of reference type (`const Type&` or `Type&&`) of a member function is
bound to when the function is called on a vector. -/
inductive Ref (T : Type) where
  /-- an object that lives outside of the buffer of the vector and holds the value `x` -/
  | object (x : T)
  /-- the element in slot `index` of the buffer that the vector owns when the call starts
  (the argument `v[index]`) -/
  | element (index : Nat)

/-- The read of a reference at some point of a member function: `buf` is the buffer the
vector owns at that point and `released` tells whether the buffer it owned when the call
started has been released in between (the reallocation branch ran and `temp` was
destroyed).  A reference to an element then dangles. -/
def Ref.read {T : Type} (r : Ref T) (buf : ArrayPtr T) (released : Bool) :
    Except Failure (Option T) :=
  match r with
  | .object x => .ok (some x)
  | .element index => if released then .error (.use_after_free index) else buf.load index

section Algorithms

variable {T : Type}

/-- The loop of `std::copy` / `std::move` from one buffer into another one:
`k` times `*d_first++ = *first++`. -/
def copyLoop (src : ArrayPtr T) : Nat → Nat → Nat → ArrayPtr T → Except Failure (ArrayPtr T)
  | _, _, 0, dst => .ok dst
  | first, d_first, k + 1, dst =>
    match src.load first with
    | .error e => .error e
    | .ok x =>
      match dst.store d_first x with
      | .error e => .error e
      | .ok dst1 => copyLoop src (first + 1) (d_first + 1) k dst1

/-- The algorithm `std::copy(first, last, d_first)` (also `std::move`) with source and
destination in two different buffers. -/
def std_copy (src : ArrayPtr T) (first last : Nat) (dst : ArrayPtr T) (d_first : Nat) :
    Except Failure (ArrayPtr T) :=
  if last < first then .error (.invalid_range first last)
  else copyLoop src first d_first (last - first) dst

/-- The loop of `std::copy` inside one buffer: `k` times `*d_first++ = *first++`. -/
def copyWithinLoop : Nat → Nat → Nat → ArrayPtr T → Except Failure (ArrayPtr T)
  | _, _, 0, buf => .ok buf
  | first, d_first, k + 1, buf =>
    match buf.load first with
    | .error e => .error e
    | .ok x =>
      match buf.store d_first x with
      | .error e => .error e
      | .ok buf1 => copyWithinLoop (first + 1) (d_first + 1) k buf1

/-- The algorithm `std::copy(first, last, d_first)` with all three positions in the same
buffer. -/
def std_copy_within (buf : ArrayPtr T) (first last d_first : Nat) :
    Except Failure (ArrayPtr T) :=
  if last < first then .error (.invalid_range first last)
  else copyWithinLoop first d_first (last - first) buf

/-- The loop of `std::copy_backward` inside one buffer: `k` times `*(--d_last) = *(--last)`. -/
def copyBackwardLoop : Nat → Nat → Nat → ArrayPtr T → Except Failure (ArrayPtr T)
  | _, _, 0, buf => .ok buf
  | last, d_last, k + 1, buf =>
    match buf.load (last - 1) with
    | .error e => .error e
    | .ok x =>
      match buf.store (d_last - 1) x with
      | .error e => .error e
      | .ok buf1 => copyBackwardLoop (last - 1) (d_last - 1) k buf1

/-- The algorithm `std::copy_backward(first, last, d_last)` (also `std::move_backward`)
with all three positions in the same buffer. -/
def std_copy_backward (buf : ArrayPtr T) (first last d_last : Nat) :
    Except Failure (ArrayPtr T) :=
  if last < first then .error (.invalid_range first last)
  else copyBackwardLoop last d_last (last - first) buf

/-- The loop `for (it = &buf[first]; it != &buf[first + k]; ++it) *it = value`
(also `std::fill`). -/
def fillLoop (value : T) : Nat → Nat → ArrayPtr T → Except Failure (ArrayPtr T)
  | _, 0, buf => .ok buf
  | first, k + 1, buf =>
    match buf.store first (some value) with
    | .error e => .error e
    | .ok buf1 => fillLoop value (first + 1) k buf1

/-- The loop of `std::equal`: `k` times `if (!(*first1 == *first2)) return false`, then
`return true`. -/
def equalLoop [DecidableEq T] (a b : ArrayPtr T) : Nat → Nat → Nat → Except Failure Bool
  | _, _, 0 => .ok true
  | first1, first2, k + 1 =>
    match a.value first1 with
    | .error e => .error e
    | .ok x =>
      match b.value first2 with
      | .error e => .error e
      | .ok y => if x = y then equalLoop a b (first1 + 1) (first2 + 1) k else .ok false

/-- The algorithm `std::equal(first1, last1, first2)`. -/
def std_equal [DecidableEq T] (a : ArrayPtr T) (first1 last1 : Nat) (b : ArrayPtr T)
    (first2 : Nat) : Except Failure Bool :=
  if last1 < first1 then .error (.invalid_range first1 last1)
  else equalLoop a b first1 first2 (last1 - first1)

/-- The loop of `std::lexicographical_compare` with `n1` elements left in the first range
and `n2` in the second one: while both ranges have elements, `if (*first1 < *first2)
return true; if (*first2 < *first1) return false;`, then
`return first1 == last1 && first2 != last2`. -/
def lexLoop [LT T] [DecidableRel (fun x y : T => x < y)] (a b : ArrayPtr T) :
    Nat → Nat → Nat → Nat → Except Failure Bool
  | _, 0, _, n2 => .ok (decide (n2 ≠ 0))
  | _, _ + 1, _, 0 => .ok false
  | first1, n1 + 1, first2, n2 + 1 =>
    match a.value first1 with
    | .error e => .error e
    | .ok x =>
      match b.value first2 with
      | .error e => .error e
      | .ok y =>
        if x < y then .ok true
        else if y < x then .ok false
        else lexLoop a b (first1 + 1) n1 (first2 + 1) n2

/-- The algorithm `std::lexicographical_compare(first1, last1, first2, last2)`. -/
def std_lexicographical_compare [LT T] [DecidableRel (fun x y : T => x < y)]
    (a : ArrayPtr T) (first1 last1 : Nat) (b : ArrayPtr T) (first2 last2 : Nat) :
    Except Failure Bool :=
  if last1 < first1 then .error (.invalid_range first1 last1)
  else if last2 < first2 then .error (.invalid_range first2 last2)
  else lexLoop a b first1 (last1 - first1) first2 (last2 - first2)

end Algorithms

/-- The class `SimpleVector<Type>`: its three data members. -/
structure SimpleVector (T : Type) where
  smart_ptr_ : ArrayPtr T
  size_ : Nat
  capacity_ : Nat
  deriving DecidableEq

namespace SimpleVector

variable {T : Type}

/-- The constructor `SimpleVector() noexcept = default`. -/
def empty : SimpleVector T := ⟨ArrayPtr.alloc 0, 0, 0⟩

/-- The constructor `SimpleVector(size_t size, const Type& value)`. -/
def ofFill (size : Nat) (value : T) : Except Failure (SimpleVector T) :=
  match fillLoop value 0 size (ArrayPtr.alloc size) with
  | .error e => .error e
  | .ok p => .ok ⟨p, size, size⟩

/-- The constructor `explicit SimpleVector(size_t size)`. -/
def ofSize [Inhabited T] (size : Nat) : Except Failure (SimpleVector T) :=
  ofFill size default

/-- The constructor `SimpleVector(std::initializer_list<Type> init)`. -/
def ofList (init : List T) : Except Failure (SimpleVector T) :=
  match std_copy (init.map some) 0 init.length (ArrayPtr.alloc init.length) 0 with
  | .error e => .error e
  | .ok p => .ok ⟨p, init.length, init.length⟩

/-- The member `GetSize`. -/
def GetSize (v : SimpleVector T) : Nat := v.size_

/-- The member `GetCapacity`. -/
def GetCapacity (v : SimpleVector T) : Nat := v.capacity_

/-- The member `IsEmpty`. -/
def IsEmpty (v : SimpleVector T) : Bool := if v.size_ = 0 then true else false

/-- The position `begin()`. -/
def begin_ (_v : SimpleVector T) : Nat := 0

/-- The position `end()`. -/
def end_ (v : SimpleVector T) : Nat := v.size_

/-- The member `Reserve`. -/
def Reserve (v : SimpleVector T) (new_capacity : Nat) : Except Failure (SimpleVector T) :=
  if new_capacity ≤ v.capacity_ then .ok v
  else
    match copyLoop v.smart_ptr_ 0 0 v.size_ (ArrayPtr.alloc new_capacity) with
    | .error e => .error e
    | .ok temp => .ok ⟨temp, v.size_, new_capacity⟩

/-- The constructor `SimpleVector(ReserveProxyObj capacity_to_reserve)`. -/
def ofReserve (capacity_to_reserve : Nat) : Except Failure (SimpleVector T) :=
  Reserve empty capacity_to_reserve

/-- The reallocation at the head of `PushBack`: when the vector is full, a buffer of
`size_ + 1` slots takes over the elements. -/
def PushBack.grow (v : SimpleVector T) : Except Failure (SimpleVector T) :=
  if v.size_ = v.capacity_ then
    match std_copy v.smart_ptr_ 0 v.size_ (ArrayPtr.alloc (v.size_ + 1)) 0 with
    | .error e => .error e
    | .ok temp => .ok ⟨temp, v.size_, v.size_ + 1⟩
  else .ok v

/-- The member `PushBack` (both overloads have the same body).  The parameter `item` is a
reference: it is read by `*(end()) = item`, after the reallocation branch, whose `temp`
has released the old buffer at the end of the block. -/
def PushBack (v : SimpleVector T) (item : Ref T) : Except Failure (SimpleVector T) :=
  match PushBack.grow v with
  | .error e => .error e
  | .ok v1 =>
    match item.read v1.smart_ptr_ (decide (v.size_ = v.capacity_)) with
    | .error e => .error e
    | .ok x =>
      match v1.smart_ptr_.store v1.end_ x with
      | .error e => .error e
      | .ok p => .ok ⟨p, v1.size_ + 1, v1.capacity_⟩

/-- The reallocation at the head of `Insert`: when the vector is full, the capacity
becomes `1` for an empty vector and doubles otherwise, and a buffer of that many slots
takes over the elements. -/
def Insert.grow (v : SimpleVector T) : Except Failure (SimpleVector T) :=
  if v.capacity_ = v.size_ then
    let capacity := if v.size_ = 0 then 1 else 2 * v.capacity_
    match std_copy v.smart_ptr_ 0 v.size_ (ArrayPtr.alloc capacity) 0 with
    | .error e => .error e
    | .ok temp => .ok ⟨temp, v.size_, capacity⟩
  else .ok v

/-- The member `Insert` (both overloads have the same body); it returns the vector
and the iterator `it`.  The parameter `value` is a reference: it is read by
`*it = std::move(value)`, after the reallocation branch, whose `temp` has released the
old buffer at the end of the block, and after the shift of the elements. -/
def Insert (v : SimpleVector T) (pos : Nat) (value : Ref T) :
    Except Failure (SimpleVector T × Nat) :=
  let dist := pos - v.begin_
  match Insert.grow v with
  | .error e => .error e
  | .ok v1 =>
    match std_copy_backward v1.smart_ptr_ (v1.begin_ + dist) v1.end_ (v1.end_ + 1) with
    | .error e => .error e
    | .ok p =>
      let it := v1.begin_ + dist
      match value.read p (decide (v.capacity_ = v.size_)) with
      | .error e => .error e
      | .ok x =>
        match p.store it x with
        | .error e => .error e
        | .ok p1 => .ok (⟨p1, v1.size_ + 1, v1.capacity_⟩, it)

/-- The member `Erase`; it returns the vector and the returned iterator. -/
def Erase (v : SimpleVector T) (pos : Nat) : Except Failure (SimpleVector T × Nat) :=
  if pos = v.end_ then
    let v1 : SimpleVector T := ⟨v.smart_ptr_, decr v.size_, v.capacity_⟩
    .ok (v1, v1.end_)
  else
    let dist := pos - v.begin_
    match std_copy_within v.smart_ptr_ (pos + 1) v.end_ pos with
    | .error e => .error e
    | .ok p => .ok (⟨p, decr v.size_, v.capacity_⟩, dist)

/-- The member `PopBack`. -/
def PopBack (v : SimpleVector T) : SimpleVector T :=
  if !v.IsEmpty then ⟨v.smart_ptr_, decr v.size_, v.capacity_⟩ else v

/-- The member `swap`: the pair of the two vectors after the exchange. -/
def swap (v other : SimpleVector T) : SimpleVector T × SimpleVector T :=
  (⟨other.smart_ptr_, other.size_, other.capacity_⟩, ⟨v.smart_ptr_, v.size_, v.capacity_⟩)

/-- The member `At`. -/
def At (v : SimpleVector T) (index : Nat) : Except Failure (Option T) :=
  if index ≥ v.size_ then .error .out_of_range else v.smart_ptr_.load index

/-- The member `Resize`. -/
def Resize [Inhabited T] (v : SimpleVector T) (new_size : Nat) :
    Except Failure (SimpleVector T) :=
  if new_size = v.size_ then .ok v
  else if new_size < v.size_ then
    match fillLoop default new_size (v.size_ - new_size) v.smart_ptr_ with
    | .error e => .error e
    | .ok p => .ok ⟨p, new_size, v.capacity_⟩
  else if new_size > v.capacity_ then
    let capacity := if new_size ≥ 2 * v.capacity_ then new_size else v.capacity_
    match std_copy v.smart_ptr_ 0 v.size_ (ArrayPtr.alloc capacity) 0 with
    | .error e => .error e
    | .ok temp =>
      match fillLoop default v.size_ (new_size - v.size_) temp with
      | .error e => .error e
      | .ok temp1 => .ok ⟨temp1, new_size, capacity⟩
  else .ok ⟨v.smart_ptr_, new_size, v.capacity_⟩

/-- The member `Clear`. -/
def Clear (v : SimpleVector T) : SimpleVector T := ⟨v.smart_ptr_, 0, v.capacity_⟩

/-- The operator `operator[]`: the content of slot `index`, without any check against
`size_`. -/
def subscript (v : SimpleVector T) (index : Nat) : Except Failure (Option T) :=
  v.smart_ptr_.load index

/-- A run of `PushBack` calls, one for each element of the list, in order; every argument
is an object outside of the vector. -/
def PushBackAll : List T → SimpleVector T → Except Failure (SimpleVector T)
  | [], v => .ok v
  | x :: xs, v =>
    match v.PushBack (.object x) with
    | .error e => .error e
    | .ok v1 => PushBackAll xs v1

/-- The copy constructor `SimpleVector(const SimpleVector& other)`: the members of the new
object start from their default initializers (so `assert(size_ == 0)` holds), `vec_copy`
is built by `SimpleVector(size_t)`, and the new object is what `swap(vec_copy)` leaves in
it. -/
def copy [Inhabited T] (other : SimpleVector T) : Except Failure (SimpleVector T) :=
  let this : SimpleVector T := empty
  match (ofSize other.GetSize : Except Failure (SimpleVector T)) with
  | .error e => .error e
  | .ok vec_copy =>
    match std_copy other.smart_ptr_ 0 other.GetSize vec_copy.smart_ptr_ 0 with
    | .error e => .error e
    | .ok p =>
      let vec_copy1 : SimpleVector T := ⟨p, vec_copy.size_, other.capacity_⟩
      .ok (this.swap vec_copy1).1

/-- The move constructor `SimpleVector(SimpleVector&& other)`: the pair of the new object
and of `other` after the call. -/
def move (other : SimpleVector T) : SimpleVector T × SimpleVector T :=
  let this : SimpleVector T := empty
  let ptrs := ArrayPtr.move_assign this.smart_ptr_ other.smart_ptr_
  (⟨ptrs.1, other.size_, other.capacity_⟩, ⟨ptrs.2, 0, 0⟩)

/-- The copy assignment `operator=(const SimpleVector& rhs)` on an object other than `rhs`
(the branch `this != &rhs`): the object after the assignment. -/
def copy_assign [Inhabited T] (self rhs : SimpleVector T) : Except Failure (SimpleVector T) :=
  match copy rhs with
  | .error e => .error e
  | .ok temp => .ok (self.swap temp).1

/-- The move assignment `operator=(SimpleVector&&) = default`: every data member is
move-assigned in turn, which for the two `size_t` members is a plain copy.  The result is
the pair of the object and of `rhs` after the assignment. -/
def move_assign (self rhs : SimpleVector T) : SimpleVector T × SimpleVector T :=
  let ptrs := ArrayPtr.move_assign self.smart_ptr_ rhs.smart_ptr_
  (⟨ptrs.1, rhs.size_, rhs.capacity_⟩, ⟨ptrs.2, rhs.size_, rhs.capacity_⟩)

/-- The operator `operator==`. -/
def op_eq [DecidableEq T] (lhs rhs : SimpleVector T) : Except Failure Bool :=
  if lhs.GetSize = rhs.GetSize then
    std_equal lhs.smart_ptr_ lhs.begin_ lhs.end_ rhs.smart_ptr_ rhs.begin_
  else .ok false

/-- The operator `operator!=`. -/
def op_ne [DecidableEq T] (lhs rhs : SimpleVector T) : Except Failure Bool :=
  match op_eq lhs rhs with
  | .error e => .error e
  | .ok r => .ok (!r)

/-- The operator `operator<`. -/
def op_lt [LT T] [DecidableRel (fun x y : T => x < y)] (lhs rhs : SimpleVector T) :
    Except Failure Bool :=
  std_lexicographical_compare lhs.smart_ptr_ lhs.begin_ lhs.end_
    rhs.smart_ptr_ rhs.begin_ rhs.end_

/-- The operator `operator<=`. -/
def op_le [LT T] [DecidableRel (fun x y : T => x < y)] (lhs rhs : SimpleVector T) :
    Except Failure Bool :=
  match op_lt rhs lhs with
  | .error e => .error e
  | .ok r => .ok (!r)

/-- The operator `operator>`. -/
def op_gt [LT T] [DecidableRel (fun x y : T => x < y)] (lhs rhs : SimpleVector T) :
    Except Failure Bool :=
  op_lt rhs lhs

/-- The operator `operator>=`. -/
def op_ge [LT T] [DecidableRel (fun x y : T => x < y)] (lhs rhs : SimpleVector T) :
    Except Failure Bool :=
  match op_lt lhs rhs with
  | .error e => .error e
  | .ok r => .ok (!r)

/-- The logical sequence of the vector: the content of the slots `[0, size_)`. -/
def elems (v : SimpleVector T) : List (Option T) := v.smart_ptr_.take v.size_

/-- The representation invariant of the data model: the buffer owns exactly `capacity_`
slots and `size_` does not exceed `capacity_`. -/
def WF (v : SimpleVector T) : Prop :=
  v.smart_ptr_.length = v.capacity_ ∧ v.size_ ≤ v.capacity_

instance (v : SimpleVector T) : Decidable (WF v) := by
  unfold WF; infer_instance

/-- The vector holds the sequence `xs`: its size is the length of `xs` and slot `j` holds
the assigned value `xs[j]` for every `j < size_`. -/
def Holds (v : SimpleVector T) (xs : List T) : Prop :=
  v.size_ = xs.length ∧ v.elems = xs.map some

instance [DecidableEq T] (v : SimpleVector T) (xs : List T) : Decidable (Holds v xs) := by
  unfold Holds; infer_instance

end SimpleVector

section LoopLemmas

variable {T : Type}

theorem ArrayPtr.load_ok (a : ArrayPtr T) (i : Nat) (h : i < a.length) :
    ArrayPtr.load a i = .ok (a.get ⟨i, h⟩) := by
  simp [ArrayPtr.load, h]

theorem ArrayPtr.store_ok (a : ArrayPtr T) (i : Nat) (x : Option T) (h : i < a.length) :
    ArrayPtr.store a i x = .ok (a.set i x) := by
  simp [ArrayPtr.store, h]

theorem ArrayPtr.length_alloc (n : Nat) : (ArrayPtr.alloc n : ArrayPtr T).length = n := by
  simp [ArrayPtr.alloc]

theorem ArrayPtr.getElem?_alloc (n j : Nat) :
    (ArrayPtr.alloc n : ArrayPtr T)[j]? = if j < n then some none else none := by
  simp [ArrayPtr.alloc, List.getElem?_replicate]

/-- The copy loop between two buffers stays inside both of them and overwrites exactly
the `k` destination slots from `d_first` on. -/
theorem copyLoop_spec (src : ArrayPtr T) (k : Nat) :
    ∀ (first d_first : Nat) (dst : ArrayPtr T),
      first + k ≤ src.length → d_first + k ≤ dst.length →
      ∃ r, copyLoop src first d_first k dst = .ok r ∧ r.length = dst.length ∧
        ∀ j, r[j]? = if d_first ≤ j ∧ j < d_first + k then src[first + (j - d_first)]?
                     else dst[j]? := by
  induction k with
  | zero =>
    intro first d_first dst _ _
    refine ⟨dst, rfl, rfl, fun j => ?_⟩
    have : ¬ (d_first ≤ j ∧ j < d_first + 0) := by omega
    rw [if_neg this]
  | succ k ih =>
    intro first d_first dst hs hd
    have h1 : first < src.length := by omega
    have h2 : d_first < dst.length := by omega
    obtain ⟨r, hr, hlen, hget⟩ :=
      ih (first + 1) (d_first + 1) (dst.set d_first (src.get ⟨first, h1⟩))
        (by omega) (by simp; omega)
    refine ⟨r, ?_, by simpa using hlen, fun j => ?_⟩
    · simp only [copyLoop, ArrayPtr.load_ok src first h1, ArrayPtr.store_ok dst d_first _ h2]
      exact hr
    · rw [hget j]
      by_cases hj : d_first + 1 ≤ j ∧ j < d_first + 1 + k
      · have hj2 : d_first ≤ j ∧ j < d_first + (k + 1) := by omega
        rw [if_pos hj, if_pos hj2]
        congr 1; omega
      · rw [if_neg hj]
        by_cases hj3 : j = d_first
        · subst hj3
          have hj2 : j ≤ j ∧ j < j + (k + 1) := by omega
          rw [if_pos hj2, List.getElem?_set_self h2]
          simp [List.getElem?_eq_getElem h1]
        · have hj2 : ¬ (d_first ≤ j ∧ j < d_first + (k + 1)) := by omega
          rw [if_neg hj2, List.getElem?_set_ne (Ne.symm hj3)]

/-- The forward copy loop inside one buffer, towards the left (`d_first ≤ first`):
the `k` slots from `d_first` on receive the original content of the `k` slots from
`first` on. -/
theorem copyWithinLoop_spec (k : Nat) :
    ∀ (first d_first : Nat) (buf : ArrayPtr T),
      d_first ≤ first → first + k ≤ buf.length →
      ∃ r, copyWithinLoop first d_first k buf = .ok r ∧ r.length = buf.length ∧
        ∀ j, r[j]? = if d_first ≤ j ∧ j < d_first + k then buf[first + (j - d_first)]?
                     else buf[j]? := by
  induction k with
  | zero =>
    intro first d_first buf _ _
    refine ⟨buf, rfl, rfl, fun j => ?_⟩
    have : ¬ (d_first ≤ j ∧ j < d_first + 0) := by omega
    rw [if_neg this]
  | succ k ih =>
    intro first d_first buf hle hb
    have h1 : first < buf.length := by omega
    have h2 : d_first < buf.length := by omega
    obtain ⟨r, hr, hlen, hget⟩ :=
      ih (first + 1) (d_first + 1) (buf.set d_first (buf.get ⟨first, h1⟩))
        (by omega) (by simp; omega)
    refine ⟨r, ?_, by simpa using hlen, fun j => ?_⟩
    · simp only [copyWithinLoop, ArrayPtr.load_ok buf first h1, ArrayPtr.store_ok buf d_first _ h2]
      exact hr
    · rw [hget j]
      by_cases hj : d_first + 1 ≤ j ∧ j < d_first + 1 + k
      · have hj2 : d_first ≤ j ∧ j < d_first + (k + 1) := by omega
        rw [if_pos hj, if_pos hj2]
        rw [List.getElem?_set_ne (by omega)]
        congr 1; omega
      · rw [if_neg hj]
        by_cases hj3 : j = d_first
        · subst hj3
          have hj2 : j ≤ j ∧ j < j + (k + 1) := by omega
          rw [if_pos hj2, List.getElem?_set_self h2]
          simp [List.getElem?_eq_getElem h1]
        · have hj2 : ¬ (d_first ≤ j ∧ j < d_first + (k + 1)) := by omega
          rw [if_neg hj2, List.getElem?_set_ne (Ne.symm hj3)]

/-- The backward copy loop inside one buffer, towards the right (`last ≤ d_last`):
the `k` slots before `d_last` receive the original content of the `k` slots before
`last`. -/
theorem copyBackwardLoop_spec (k : Nat) :
    ∀ (last d_last : Nat) (buf : ArrayPtr T),
      last ≤ d_last → k ≤ last → d_last ≤ buf.length →
      ∃ r, copyBackwardLoop last d_last k buf = .ok r ∧ r.length = buf.length ∧
        ∀ j, r[j]? = if d_last - k ≤ j ∧ j < d_last then buf[j - (d_last - last)]?
                     else buf[j]? := by
  induction k with
  | zero =>
    intro last d_last buf _ _ _
    refine ⟨buf, rfl, rfl, fun j => ?_⟩
    have : ¬ (d_last - 0 ≤ j ∧ j < d_last) := by omega
    rw [if_neg this]
  | succ k ih =>
    intro last d_last buf hle hk hb
    have h1 : last - 1 < buf.length := by omega
    have h2 : d_last - 1 < buf.length := by omega
    obtain ⟨r, hr, hlen, hget⟩ :=
      ih (last - 1) (d_last - 1) (buf.set (d_last - 1) (buf.get ⟨last - 1, h1⟩))
        (by omega) (by omega) (by simp; omega)
    refine ⟨r, ?_, by simpa using hlen, fun j => ?_⟩
    · simp only [copyBackwardLoop, ArrayPtr.load_ok buf (last - 1) h1,
        ArrayPtr.store_ok buf (d_last - 1) _ h2]
      exact hr
    · rw [hget j]
      by_cases hj : d_last - 1 - k ≤ j ∧ j < d_last - 1
      · have hj2 : d_last - (k + 1) ≤ j ∧ j < d_last := by omega
        rw [if_pos hj, if_pos hj2]
        rw [List.getElem?_set_ne (by omega)]
        congr 1; omega
      · rw [if_neg hj]
        by_cases hj3 : j = d_last - 1
        · subst hj3
          have hj2 : d_last - (k + 1) ≤ d_last - 1 ∧ d_last - 1 < d_last := by omega
          rw [if_pos hj2, List.getElem?_set_self h2]
          have : d_last - 1 - (d_last - last) = last - 1 := by omega
          rw [this]
          simp [List.getElem?_eq_getElem h1]
        · have hj2 : ¬ (d_last - (k + 1) ≤ j ∧ j < d_last) := by omega
          rw [if_neg hj2, List.getElem?_set_ne (Ne.symm hj3)]

/-- The fill loop stays inside the buffer and overwrites exactly the `k` slots from
`first` on. -/
theorem fillLoop_spec (value : T) (k : Nat) :
    ∀ (first : Nat) (buf : ArrayPtr T), first + k ≤ buf.length →
      ∃ r, fillLoop value first k buf = .ok r ∧ r.length = buf.length ∧
        ∀ j, r[j]? = if first ≤ j ∧ j < first + k then some (some value) else buf[j]? := by
  induction k with
  | zero =>
    intro first buf _
    refine ⟨buf, rfl, rfl, fun j => ?_⟩
    have : ¬ (first ≤ j ∧ j < first + 0) := by omega
    rw [if_neg this]
  | succ k ih =>
    intro first buf hb
    have h2 : first < buf.length := by omega
    obtain ⟨r, hr, hlen, hget⟩ := ih (first + 1) (buf.set first (some value)) (by simp; omega)
    refine ⟨r, ?_, by simpa using hlen, fun j => ?_⟩
    · simp only [fillLoop, ArrayPtr.store_ok buf first _ h2]
      exact hr
    · rw [hget j]
      by_cases hj : first + 1 ≤ j ∧ j < first + 1 + k
      · have hj2 : first ≤ j ∧ j < first + (k + 1) := by omega
        rw [if_pos hj, if_pos hj2]
      · rw [if_neg hj]
        by_cases hj3 : j = first
        · subst hj3
          have hj2 : j ≤ j ∧ j < j + (k + 1) := by omega
          rw [if_pos hj2, List.getElem?_set_self h2]
        · have hj2 : ¬ (first ≤ j ∧ j < first + (k + 1)) := by omega
          rw [if_neg hj2, List.getElem?_set_ne (Ne.symm hj3)]

end LoopLemmas

section OperationLemmas

variable {T : Type}

/-- The copy of the first `n` slots of one buffer to the front of another one. -/
theorem copyLoop_zero_spec (src dst : ArrayPtr T) (n : Nat)
    (hs : n ≤ src.length) (hd : n ≤ dst.length) :
    ∃ r, copyLoop src 0 0 n dst = .ok r ∧ r.length = dst.length ∧
      ∀ j, r[j]? = if j < n then src[j]? else dst[j]? := by
  obtain ⟨r, hr, hlen, hget⟩ := copyLoop_spec src n 0 0 dst (by omega) (by omega)
  refine ⟨r, hr, hlen, fun j => ?_⟩
  rw [hget j]
  by_cases hj : j < n
  · rw [if_pos hj, if_pos (by omega)]; simp
  · rw [if_neg hj, if_neg (by omega)]

/-- The algorithm `std::copy(src, src + n, dst)` between two buffers. -/
theorem std_copy_zero_spec (src dst : ArrayPtr T) (n : Nat)
    (hs : n ≤ src.length) (hd : n ≤ dst.length) :
    ∃ r, std_copy src 0 n dst 0 = .ok r ∧ r.length = dst.length ∧
      ∀ j, r[j]? = if j < n then src[j]? else dst[j]? := by
  obtain ⟨r, hr, hlen, hget⟩ := copyLoop_zero_spec src dst n hs hd
  refine ⟨r, ?_, hlen, hget⟩
  simp only [std_copy, Nat.not_lt_zero, if_false, Nat.sub_zero]
  exact hr

/-- The slots of the logical sequence, one by one. -/
theorem SimpleVector.getElem?_elems (v : SimpleVector T) (j : Nat) :
    v.elems[j]? = if j < v.size_ then v.smart_ptr_[j]? else none := by
  simp [SimpleVector.elems, List.getElem?_take]

/-- What `PushBack` of an object outside of the vector does to a well-formed vector. -/
theorem SimpleVector.PushBack_spec (v : SimpleVector T) (item : T) (h : v.WF) :
    ∃ v1, v.PushBack (.object item) = .ok v1 ∧ v1.WF ∧ v1.size_ = v.size_ + 1 ∧
      v1.capacity_ = (if v.size_ = v.capacity_ then v.size_ + 1 else v.capacity_) ∧
      v1.elems = v.elems ++ [some item] := by
  obtain ⟨hlen, hle⟩ := h
  by_cases hfull : v.size_ = v.capacity_
  · obtain ⟨r, hr, hrlen, hget⟩ :=
      std_copy_zero_spec v.smart_ptr_ (ArrayPtr.alloc (v.size_ + 1)) v.size_
        (by omega) (by simp [ArrayPtr.length_alloc])
    rw [ArrayPtr.length_alloc] at hrlen
    refine ⟨⟨r.set v.size_ (some item), v.size_ + 1, v.size_ + 1⟩, ?_, ?_, rfl, ?_, ?_⟩
    · simp only [SimpleVector.PushBack, SimpleVector.PushBack.grow, if_pos hfull, hr,
        SimpleVector.end_, Ref.read]
      rw [ArrayPtr.store_ok r v.size_ _ (by omega)]
    · exact ⟨by simp [hrlen], Nat.le_refl _⟩
    · rw [if_pos hfull]
    · apply List.ext_getElem?
      intro j
      rw [SimpleVector.getElem?_elems, List.getElem?_append, SimpleVector.getElem?_elems]
      simp only [SimpleVector.elems, List.length_take, List.getElem?_set, hrlen, hget]
      by_cases h1 : j < v.size_
      · have h2 : j < min v.size_ v.smart_ptr_.length := by omega
        have h3 : ¬ v.size_ = j := by omega
        simp [h1, h2, h3, Nat.lt_succ_of_lt h1]
      · by_cases h2 : j = v.size_
        · subst h2
          have h3 : min v.size_ v.smart_ptr_.length = v.size_ := by omega
          simp [h3]
        · have h3 : min v.size_ v.smart_ptr_.length = v.size_ := by omega
          have h4 : ¬ j < v.size_ + 1 := by omega
          have h5 : j - v.size_ ≠ 0 := by omega
          simp [h3, h4, h1]
          omega
  · have hlt : v.size_ < v.smart_ptr_.length := by omega
    refine ⟨⟨v.smart_ptr_.set v.size_ (some item), v.size_ + 1, v.capacity_⟩, ?_, ?_, rfl, ?_, ?_⟩
    · simp only [SimpleVector.PushBack, SimpleVector.PushBack.grow, if_neg hfull,
        SimpleVector.end_, Ref.read]
      rw [ArrayPtr.store_ok v.smart_ptr_ v.size_ _ hlt]
    · exact ⟨by simp [hlen], by show v.size_ + 1 ≤ v.capacity_; omega⟩
    · rw [if_neg hfull]
    · apply List.ext_getElem?
      intro j
      rw [SimpleVector.getElem?_elems, List.getElem?_append, SimpleVector.getElem?_elems]
      simp only [SimpleVector.elems, List.length_take, List.getElem?_set]
      have h3 : min v.size_ v.smart_ptr_.length = v.size_ := by omega
      by_cases h1 : j < v.size_
      · have h2 : ¬ v.size_ = j := by omega
        simp [h1, h2, h3, Nat.lt_succ_of_lt h1]
      · by_cases h2 : j = v.size_
        · subst h2
          simp [h3, hlt]
        · have h4 : ¬ j < v.size_ + 1 := by omega
          simp [h3, h4, h1]
          omega

end OperationLemmas

section InsertErase

variable {T : Type}

/-- The entries of a list with one more element put in at position `p`. -/
theorem getElem?_take_cons_drop {α : Type} (l : List α) (p : Nat) (x : α) (hp : p ≤ l.length)
    (j : Nat) :
    (l.take p ++ [x] ++ l.drop p)[j]? =
      if j < p then l[j]? else if j = p then some x else l[j - 1]? := by
  have hlen : (l.take p).length = p := by simp [List.length_take]; omega
  rw [List.append_assoc, List.getElem?_append, hlen]
  by_cases h1 : j < p
  · rw [if_pos h1, if_pos h1, List.getElem?_take, if_pos h1]
  · rw [if_neg h1, if_neg h1]
    by_cases h2 : j = p
    · subst h2; simp
    · rw [if_neg h2]
      obtain ⟨m, hm⟩ : ∃ m, j - p = m + 1 := ⟨j - p - 1, by omega⟩
      rw [hm]
      simp only [List.singleton_append, List.getElem?_cons_succ, List.getElem?_drop]
      congr 1; omega

/-- What the reallocation at the head of `Insert` does to a well-formed vector. -/
theorem SimpleVector.Insert_grow_spec (v : SimpleVector T) (h : v.WF) :
    ∃ v1, SimpleVector.Insert.grow v = .ok v1 ∧ v1.smart_ptr_.length = v1.capacity_ ∧
      v1.size_ = v.size_ ∧ v.size_ < v1.capacity_ ∧
      v1.capacity_ = (if v.capacity_ = v.size_ then (if v.capacity_ = 0 then 1 else 2 * v.capacity_)
                      else v.capacity_) ∧
      ∀ j, j < v.size_ → v1.smart_ptr_[j]? = v.smart_ptr_[j]? := by
  obtain ⟨hlen, hle⟩ := h
  by_cases hfull : v.capacity_ = v.size_
  · have hcap : v.size_ < (if v.size_ = 0 then 1 else 2 * v.capacity_) := by
      by_cases h0 : v.size_ = 0
      · rw [if_pos h0]; omega
      · rw [if_neg h0]; omega
    obtain ⟨r, hr, hrlen, hget⟩ :=
      std_copy_zero_spec v.smart_ptr_
        (ArrayPtr.alloc (if v.size_ = 0 then 1 else 2 * v.capacity_)) v.size_
        (by omega) (by rw [ArrayPtr.length_alloc]; omega)
    rw [ArrayPtr.length_alloc] at hrlen
    refine ⟨⟨r, v.size_, if v.size_ = 0 then 1 else 2 * v.capacity_⟩, ?_, hrlen, rfl, hcap, ?_, ?_⟩
    · simp only [SimpleVector.Insert.grow, if_pos hfull, hr]
    · show (if v.size_ = 0 then 1 else 2 * v.capacity_) = _
      rw [if_pos hfull, hfull]
    · intro j hj
      show r[j]? = _
      rw [hget j, if_pos hj]
  · refine ⟨v, ?_, hlen, rfl, by omega, by rw [if_neg hfull], fun _ _ => rfl⟩
    simp only [SimpleVector.Insert.grow, if_neg hfull]

/-- What `Insert` of an object outside of the vector does to a well-formed vector at a
position of `[begin, end]`. -/
theorem SimpleVector.Insert_spec (v : SimpleVector T) (pos : Nat) (value : T) (h : v.WF)
    (hpos : pos ≤ v.size_) :
    ∃ v1, v.Insert pos (.object value) = .ok (v1, pos) ∧ v1.WF ∧ v1.size_ = v.size_ + 1 ∧
      v1.capacity_ = (if v.capacity_ = v.size_ then (if v.capacity_ = 0 then 1 else 2 * v.capacity_)
                      else v.capacity_) ∧
      v1.elems = v.elems.take pos ++ [some value] ++ v.elems.drop pos := by
  obtain ⟨g, hg, hglen, hgsize, hgcap, hgcapeq, hgget⟩ := SimpleVector.Insert_grow_spec v h
  obtain ⟨hlen, hle⟩ := h
  obtain ⟨r, hr, hrlen, hget⟩ :=
    copyBackwardLoop_spec (v.size_ - pos) v.size_ (v.size_ + 1) g.smart_ptr_
      (by omega) (by omega) (by omega)
  have hstore : pos < r.length := by omega
  refine ⟨⟨r.set pos (some value), v.size_ + 1, g.capacity_⟩, ?_, ?_, rfl, hgcapeq, ?_⟩
  · simp only [SimpleVector.Insert, hg, SimpleVector.begin_, SimpleVector.end_, hgsize,
      std_copy_backward, Ref.read, Nat.zero_add, Nat.sub_zero, if_neg (Nat.not_lt.mpr hpos), hr,
      ArrayPtr.store_ok r pos _ hstore]
  · exact ⟨by simp [hrlen, hglen], by show v.size_ + 1 ≤ g.capacity_; omega⟩
  · apply List.ext_getElem?
    intro j
    have helen : v.elems.length = v.size_ := by
      simp [SimpleVector.elems, List.length_take]; omega
    rw [getElem?_take_cons_drop v.elems pos (some value) (by omega) j,
      SimpleVector.getElem?_elems]
    show (if j < v.size_ + 1 then (r.set pos (some value))[j]? else none) = _
    rw [List.getElem?_set, hget j]
    by_cases h1 : j < pos
    · rw [if_pos h1, if_pos (by omega), if_neg (by omega), if_neg (by omega),
        SimpleVector.getElem?_elems, if_pos (by omega), hgget j (by omega)]
    · rw [if_neg h1]
      by_cases h2 : j = pos
      · subst h2
        rw [if_pos rfl, if_pos (by omega), if_pos rfl, if_pos hstore]
      · rw [if_neg h2, SimpleVector.getElem?_elems]
        by_cases h3 : j < v.size_ + 1
        · rw [if_pos h3, if_neg (by omega), if_pos (by omega), if_pos (by omega)]
          have : j - (v.size_ + 1 - v.size_) = j - 1 := by omega
          rw [this, hgget (j - 1) (by omega)]
        · rw [if_neg h3, if_neg (by omega)]

/-- What `Erase` does to a well-formed vector at a position of `[begin, end)`. -/
theorem SimpleVector.Erase_spec (v : SimpleVector T) (pos : Nat) (h : v.WF)
    (hpos : pos < v.size_) :
    ∃ v1, v.Erase pos = .ok (v1, pos) ∧ v1.WF ∧ v1.size_ + 1 = v.size_ ∧
      v1.capacity_ = v.capacity_ ∧ v1.elems = v.elems.eraseIdx pos := by
  obtain ⟨hlen, hle⟩ := h
  obtain ⟨r, hr, hrlen, hget⟩ :=
    copyWithinLoop_spec (v.size_ - (pos + 1)) (pos + 1) pos v.smart_ptr_ (by omega) (by omega)
  have hdecr : decr v.size_ = v.size_ - 1 := by
    unfold decr; rw [if_neg (by omega)]
  refine ⟨⟨r, v.size_ - 1, v.capacity_⟩, ?_, ?_, ?_, rfl, ?_⟩
  · simp only [SimpleVector.Erase, SimpleVector.end_, SimpleVector.begin_,
      if_neg (Nat.ne_of_lt hpos), std_copy_within, if_neg (show ¬ v.size_ < pos + 1 by omega),
      hr, hdecr, Nat.sub_zero]
  · exact ⟨by simp [hrlen, hlen], by show v.size_ - 1 ≤ v.capacity_; omega⟩
  · show v.size_ - 1 + 1 = v.size_
    omega
  · apply List.ext_getElem?
    intro j
    rw [List.getElem?_eraseIdx, SimpleVector.getElem?_elems, SimpleVector.getElem?_elems,
      SimpleVector.getElem?_elems]
    show (if j < v.size_ - 1 then r[j]? else none) = _
    rw [hget j]
    by_cases h1 : j < pos
    · rw [if_pos h1, if_pos (by omega), if_neg (by omega), if_pos (by omega)]
    · rw [if_neg h1]
      by_cases h2 : j < v.size_ - 1
      · rw [if_pos h2, if_pos (by omega), if_pos (by omega)]
        congr 1; omega
      · rw [if_neg h2, if_neg (by omega)]

end InsertErase

section ReserveResize

variable {T : Type}

/-- What `Reserve` does to a well-formed vector. -/
theorem SimpleVector.Reserve_spec (v : SimpleVector T) (new_capacity : Nat) (h : v.WF) :
    ∃ v1, v.Reserve new_capacity = .ok v1 ∧ v1.WF ∧ v1.size_ = v.size_ ∧
      v1.capacity_ = max v.capacity_ new_capacity ∧ v1.elems = v.elems := by
  by_cases hc : new_capacity ≤ v.capacity_
  · refine ⟨v, ?_, h, rfl, by rw [Nat.max_eq_left hc], rfl⟩
    simp only [SimpleVector.Reserve, if_pos hc]
  · obtain ⟨hlen, hle⟩ := h
    obtain ⟨r, hr, hrlen, hget⟩ :=
      copyLoop_zero_spec v.smart_ptr_ (ArrayPtr.alloc new_capacity) v.size_
        (by omega) (by rw [ArrayPtr.length_alloc]; omega)
    rw [ArrayPtr.length_alloc] at hrlen
    refine ⟨⟨r, v.size_, new_capacity⟩, ?_, ⟨hrlen, by show v.size_ ≤ new_capacity; omega⟩, rfl,
      ?_, ?_⟩
    · simp only [SimpleVector.Reserve, if_neg hc, hr]
    · show new_capacity = _
      rw [Nat.max_eq_right (by omega)]
    · apply List.ext_getElem?
      intro j
      rw [SimpleVector.getElem?_elems, SimpleVector.getElem?_elems]
      show (if j < v.size_ then r[j]? else none) = _
      by_cases h1 : j < v.size_
      · rw [if_pos h1, if_pos h1, hget j, if_pos h1]
      · rw [if_neg h1, if_neg h1]

/-- What `Resize` does to a well-formed vector when the new size does not exceed the
size. -/
theorem SimpleVector.Resize_shrink_spec [Inhabited T] (v : SimpleVector T) (new_size : Nat)
    (h : v.WF) (hn : new_size ≤ v.size_) :
    ∃ v1, v.Resize new_size = .ok v1 ∧ v1.WF ∧ v1.size_ = new_size ∧
      v1.capacity_ = v.capacity_ ∧ v1.elems = v.elems.take new_size ∧
      ∀ j, v1.smart_ptr_[j]? =
        if new_size ≤ j ∧ j < v.size_ then some (some default) else v.smart_ptr_[j]? := by
  obtain ⟨hlen, hle⟩ := h
  by_cases heq : new_size = v.size_
  · refine ⟨v, ?_, ⟨hlen, hle⟩, heq.symm, rfl, ?_, fun j => ?_⟩
    · simp only [SimpleVector.Resize, if_pos heq]
    · rw [heq, SimpleVector.elems, List.take_take, Nat.min_self]
    · rw [if_neg (by omega)]
  · have hlt : new_size < v.size_ := by omega
    obtain ⟨r, hr, hrlen, hget⟩ :=
      fillLoop_spec (default : T) (v.size_ - new_size) new_size v.smart_ptr_ (by omega)
    refine ⟨⟨r, new_size, v.capacity_⟩, ?_, ⟨by simp [hrlen, hlen], by
      show new_size ≤ v.capacity_; omega⟩, rfl, rfl, ?_, fun j => ?_⟩
    · simp only [SimpleVector.Resize, if_neg heq, if_pos hlt, hr]
    · apply List.ext_getElem?
      intro j
      rw [List.getElem?_take, SimpleVector.getElem?_elems, SimpleVector.getElem?_elems]
      show (if j < new_size then r[j]? else none) = _
      by_cases h1 : j < new_size
      · rw [if_pos h1, if_pos h1, if_pos (by omega), hget j, if_neg (by omega)]
      · rw [if_neg h1, if_neg h1]
    · show r[j]? = _
      rw [hget j]
      by_cases h1 : new_size ≤ j ∧ j < v.size_
      · rw [if_pos h1, if_pos (by omega)]
      · rw [if_neg h1, if_neg (by omega)]

/-- What `Resize` does to a well-formed vector when the new size is at least twice the
capacity (and exceeds it): the buffer is reallocated with exactly `new_size` slots and the
new elements are default values. -/
theorem SimpleVector.Resize_grow_spec [Inhabited T] (v : SimpleVector T) (new_size : Nat)
    (h : v.WF) (hn : v.capacity_ < new_size) (h2 : 2 * v.capacity_ ≤ new_size) :
    ∃ v1, v.Resize new_size = .ok v1 ∧ v1.WF ∧ v1.size_ = new_size ∧
      v1.capacity_ = new_size ∧
      v1.elems = v.elems ++ List.replicate (new_size - v.size_) (some default) := by
  obtain ⟨hlen, hle⟩ := h
  obtain ⟨t, ht, htlen, htget⟩ :=
    std_copy_zero_spec v.smart_ptr_ (ArrayPtr.alloc new_size) v.size_
      (by omega) (by rw [ArrayPtr.length_alloc]; omega)
  rw [ArrayPtr.length_alloc] at htlen
  obtain ⟨r, hr, hrlen, hget⟩ :=
    fillLoop_spec (default : T) (new_size - v.size_) v.size_ t (by omega)
  refine ⟨⟨r, new_size, new_size⟩, ?_, ⟨by simp [hrlen, htlen], Nat.le_refl _⟩, rfl, rfl, ?_⟩
  · simp only [SimpleVector.Resize, if_neg (show ¬ new_size = v.size_ by omega),
      if_neg (show ¬ new_size < v.size_ by omega), if_pos (show new_size > v.capacity_ from hn),
      if_pos (show new_size ≥ 2 * v.capacity_ from h2), ht, hr]
  · apply List.ext_getElem?
    intro j
    have helen : v.elems.length = v.size_ := by
      simp [SimpleVector.elems, List.length_take]; omega
    rw [List.getElem?_append, helen, SimpleVector.getElem?_elems, SimpleVector.getElem?_elems,
      List.getElem?_replicate]
    show (if j < new_size then r[j]? else none) = _
    rw [hget j, htget j]
    split_ifs <;> first | rfl | (exfalso; omega)

end ReserveResize

section Helpers

variable {T : Type}

/-- The default-constructed vector is well formed. -/
theorem SimpleVector.WF_empty : (SimpleVector.empty : SimpleVector T).WF :=
  ⟨rfl, Nat.le_refl _⟩

/-- The default-constructed vector holds the empty sequence. -/
theorem SimpleVector.elems_empty : (SimpleVector.empty : SimpleVector T).elems = [] := rfl

/-- The initializer-list constructor allocates one slot per element and copies the
elements in order. -/
theorem SimpleVector.ofList_spec (init : List T) :
    SimpleVector.ofList init = .ok ⟨init.map some, init.length, init.length⟩ := by
  obtain ⟨r, hr, hrlen, hget⟩ :=
    std_copy_zero_spec (init.map some) (ArrayPtr.alloc init.length) init.length
      (by simp) (by rw [ArrayPtr.length_alloc])
  have : r = init.map some := by
    apply List.ext_getElem?
    intro j
    rw [hget j]
    by_cases h1 : j < init.length
    · rw [if_pos h1]
    · rw [if_neg h1, ArrayPtr.getElem?_alloc, if_neg h1, List.getElem?_eq_none (by simp; omega)]
  simp only [SimpleVector.ofList, hr, this]

/-- Reading a slot of the logical sequence with `operator[]`. -/
theorem SimpleVector.subscript_of_elems (v : SimpleVector T) (i : Nat) (x : Option T)
    (h : v.elems[i]? = some x) : v.subscript i = .ok x := by
  rw [SimpleVector.getElem?_elems] at h
  by_cases h1 : i < v.size_
  · rw [if_pos h1] at h
    obtain ⟨h2, h3⟩ := List.getElem?_eq_some_iff.mp h
    simp only [SimpleVector.subscript, ArrayPtr.load_ok v.smart_ptr_ i h2, List.get_eq_getElem, h3]
  · rw [if_neg h1] at h
    cases h

/-- Reading any allocated slot with `operator[]`. -/
theorem SimpleVector.subscript_of_getElem? (v : SimpleVector T) (i : Nat) (x : Option T)
    (h : v.smart_ptr_[i]? = some x) : v.subscript i = .ok x := by
  obtain ⟨h2, h3⟩ := List.getElem?_eq_some_iff.mp h
  simp only [SimpleVector.subscript, ArrayPtr.load_ok v.smart_ptr_ i h2, List.get_eq_getElem, h3]

/-- The logical sequence has `size_` entries in a well-formed vector. -/
theorem SimpleVector.length_elems (v : SimpleVector T) (h : v.WF) :
    v.elems.length = v.size_ := by
  obtain ⟨hlen, hle⟩ := h
  simp [SimpleVector.elems, List.length_take]; omega

/-- What a run of `PushBack` calls does to a well-formed vector. -/
theorem SimpleVector.PushBackAll_spec (xs : List T) :
    ∀ v : SimpleVector T, v.WF →
      ∃ v1, SimpleVector.PushBackAll xs v = .ok v1 ∧ v1.WF ∧
        v1.size_ = v.size_ + xs.length ∧ v1.elems = v.elems ++ xs.map some := by
  induction xs with
  | nil =>
    intro v h
    exact ⟨v, rfl, h, rfl, by simp⟩
  | cons x xs ih =>
    intro v h
    obtain ⟨v1, h1, hwf1, hsz1, _, hel1⟩ := SimpleVector.PushBack_spec v x h
    obtain ⟨v2, h2, hwf2, hsz2, hel2⟩ := ih v1 hwf1
    refine ⟨v2, ?_, hwf2, ?_, ?_⟩
    · simp only [SimpleVector.PushBackAll, h1]
      exact h2
    · rw [hsz2, hsz1, List.length_cons]; omega
    · rw [hel2, hel1]; simp

/-- The member `PopBack` keeps a well-formed vector well formed. -/
theorem SimpleVector.PopBack_WF (v : SimpleVector T) (h : v.WF) : v.PopBack.WF := by
  obtain ⟨hlen, hle⟩ := h
  by_cases h0 : v.size_ = 0
  · simp only [SimpleVector.PopBack, SimpleVector.IsEmpty, if_pos h0]
    exact ⟨hlen, hle⟩
  · simp only [SimpleVector.PopBack, SimpleVector.IsEmpty, if_neg h0, decr]
    exact ⟨hlen, by show v.size_ - 1 ≤ v.capacity_; omega⟩

/-- The member `Clear` keeps a well-formed vector well formed. -/
theorem SimpleVector.Clear_WF (v : SimpleVector T) (h : v.WF) : v.Clear.WF :=
  ⟨h.1, Nat.zero_le _⟩

end Helpers

section ResizeDefects

variable {T : Type}

/-- A fill loop that runs past the end of the buffer fails at the first slot outside of
it. -/
theorem fillLoop_overrun (value : T) (k : Nat) :
    ∀ (first : Nat) (buf : ArrayPtr T), first ≤ buf.length → buf.length < first + k →
      fillLoop value first k buf = .error (.out_of_bounds buf.length buf.length) := by
  induction k with
  | zero => intro first buf h1 h2; omega
  | succ k ih =>
    intro first buf h1 h2
    by_cases hlt : first < buf.length
    · have hstep := ih (first + 1) (buf.set first (some value)) (by simp; omega) (by simp; omega)
      simp only [fillLoop, ArrayPtr.store_ok buf first _ hlt]
      rw [hstep, List.length_set]
    · have heq : first = buf.length := by omega
      subst heq
      simp only [fillLoop, ArrayPtr.store, if_neg hlt]

/-- What `Resize` does to a well-formed vector when the new size lies between the
capacity and twice the capacity: the capacity is kept, the new buffer has `capacity_`
slots and the default-fill of `[size_, new_size)` leaves it at slot `capacity_`. -/
theorem SimpleVector.Resize_between_spec [Inhabited T] (v : SimpleVector T) (new_size : Nat)
    (h : v.WF) (hn : v.capacity_ < new_size) (h2 : new_size < 2 * v.capacity_) :
    v.Resize new_size = .error (.out_of_bounds v.capacity_ v.capacity_) := by
  obtain ⟨hlen, hle⟩ := h
  obtain ⟨t, ht, htlen, _⟩ :=
    std_copy_zero_spec v.smart_ptr_ (ArrayPtr.alloc v.capacity_) v.size_
      (by omega) (by rw [ArrayPtr.length_alloc]; omega)
  rw [ArrayPtr.length_alloc] at htlen
  have hfill := fillLoop_overrun (default : T) (new_size - v.size_) v.size_ t
    (by omega) (by omega)
  simp only [SimpleVector.Resize, if_neg (show ¬ new_size = v.size_ by omega),
    if_neg (show ¬ new_size < v.size_ by omega), if_pos (show new_size > v.capacity_ from hn),
    if_neg (show ¬ new_size ≥ 2 * v.capacity_ by omega), ht, hfill, htlen]

/-- What `Resize` does to a well-formed vector when the new size exceeds the size but
not the capacity: only `size_` changes, no slot is written. -/
theorem SimpleVector.Resize_within_spec [Inhabited T] (v : SimpleVector T) (new_size : Nat)
    (hs : v.size_ < new_size) (hc : new_size ≤ v.capacity_) :
    v.Resize new_size = .ok ⟨v.smart_ptr_, new_size, v.capacity_⟩ := by
  simp only [SimpleVector.Resize, if_neg (show ¬ new_size = v.size_ by omega),
    if_neg (show ¬ new_size < v.size_ by omega),
    if_neg (show ¬ new_size > v.capacity_ by omega)]

end ResizeDefects

section CompareLemmas

variable {T : Type}

/-- The value of a slot that holds an assigned value. -/
theorem ArrayPtr.value_ok (a : ArrayPtr T) (i : Nat) (x : T) (h : a[i]? = some (some x)) :
    ArrayPtr.value a i = .ok x := by
  obtain ⟨h1, h2⟩ := List.getElem?_eq_some_iff.mp h
  simp only [ArrayPtr.value, ArrayPtr.load_ok a i h1, List.get_eq_getElem, h2]

/-- The slots of a vector that holds the sequence `xs`. -/
theorem SimpleVector.Holds.getElem? {v : SimpleVector T} {xs : List T} (h : v.Holds xs)
    (j : Nat) (hj : j < xs.length) : v.smart_ptr_[j]? = some (some (xs.get ⟨j, hj⟩)) := by
  obtain ⟨hsz, hel⟩ := h
  have h1 := SimpleVector.getElem?_elems v j
  rw [hel, List.getElem?_map, List.getElem?_eq_getElem hj, if_pos (by omega)] at h1
  rw [← h1]; rfl

/-- A vector that holds a sequence has its `size_` slots inside the buffer. -/
theorem SimpleVector.Holds.size_le {v : SimpleVector T} {xs : List T} (h : v.Holds xs) :
    v.size_ ≤ v.smart_ptr_.length := by
  obtain ⟨hsz, hel⟩ := h
  have h1 : v.elems.length = xs.length := by rw [hel, List.length_map]
  simp only [SimpleVector.elems, List.length_take] at h1
  omega

/-- A vector holds at most one sequence. -/
theorem SimpleVector.Holds.unique {v : SimpleVector T} {xs ys : List T} (h : v.Holds xs)
    (h2 : v.Holds ys) : xs = ys := by
  have h3 : xs.map some = ys.map some := by rw [← h.2, ← h2.2]
  exact List.map_injective_iff.mpr (Option.some_injective T) h3

/-- The loop of `std::equal` on two ranges that hold the lists `xs` and `ys` of the same
length decides `xs = ys`. -/
theorem equalLoop_spec [DecidableEq T] (a b : ArrayPtr T) (xs : List T) :
    ∀ (ys : List T) (first1 first2 : Nat),
      (∀ j (hj : j < xs.length), a[first1 + j]? = some (some (xs.get ⟨j, hj⟩))) →
      (∀ j (hj : j < ys.length), b[first2 + j]? = some (some (ys.get ⟨j, hj⟩))) →
      xs.length = ys.length →
      equalLoop a b first1 first2 xs.length = .ok (decide (xs = ys)) := by
  induction xs with
  | nil =>
    intro ys first1 first2 _ _ hlen
    have : ys = [] := List.length_eq_zero.mp hlen.symm
    subst this
    rfl
  | cons x xs ih =>
    intro ys first1 first2 ha hb hlen
    cases ys with
    | nil => simp at hlen
    | cons y ys =>
      have hx : a.value first1 = .ok x :=
        ArrayPtr.value_ok a first1 x (by simpa using ha 0 (by simp))
      have hy : b.value first2 = .ok y :=
        ArrayPtr.value_ok b first2 y (by simpa using hb 0 (by simp))
      have hrec := ih ys (first1 + 1) (first2 + 1)
        (fun j hj => by
          have := ha (j + 1) (by simp; omega)
          rw [show first1 + 1 + j = first1 + (j + 1) by omega]
          simpa using this)
        (fun j hj => by
          have := hb (j + 1) (by simp; omega)
          rw [show first2 + 1 + j = first2 + (j + 1) by omega]
          simpa using this)
        (by simpa using hlen)
      simp only [List.length_cons, equalLoop, hx, hy]
      by_cases hxy : x = y
      · rw [if_pos hxy, hrec]
        subst hxy
        simp
      · rw [if_neg hxy]
        simp [hxy]

/-- The loop of `std::lexicographical_compare` on two ranges that hold the lists `xs` and
`ys` decides whether `xs` is lexicographically less than `ys`. -/
theorem lexLoop_spec [LinearOrder T] (a b : ArrayPtr T) (xs : List T) :
    ∀ (ys : List T) (first1 first2 : Nat),
      (∀ j (hj : j < xs.length), a[first1 + j]? = some (some (xs.get ⟨j, hj⟩))) →
      (∀ j (hj : j < ys.length), b[first2 + j]? = some (some (ys.get ⟨j, hj⟩))) →
      lexLoop a b first1 xs.length first2 ys.length
        = .ok (decide (List.Lex (fun x y : T => x < y) xs ys)) := by
  induction xs with
  | nil =>
    intro ys first1 first2 _ _
    cases ys with
    | nil =>
      have : ¬ List.Lex (fun x y : T => x < y) [] [] := List.Lex.not_nil_right _ _
      simp [lexLoop, this]
    | cons y ys =>
      have : List.Lex (fun x y : T => x < y) [] (y :: ys) := List.Lex.nil
      simp [lexLoop, this]
  | cons x xs ih =>
    intro ys first1 first2 ha hb
    cases ys with
    | nil =>
      have : ¬ List.Lex (fun x y : T => x < y) (x :: xs) [] := List.Lex.not_nil_right _ _
      simp [lexLoop, this]
    | cons y ys =>
      have hx : a.value first1 = .ok x :=
        ArrayPtr.value_ok a first1 x (by simpa using ha 0 (by simp))
      have hy : b.value first2 = .ok y :=
        ArrayPtr.value_ok b first2 y (by simpa using hb 0 (by simp))
      have hrec := ih ys (first1 + 1) (first2 + 1)
        (fun j hj => by
          have := ha (j + 1) (by simp; omega)
          rw [show first1 + 1 + j = first1 + (j + 1) by omega]
          simpa using this)
        (fun j hj => by
          have := hb (j + 1) (by simp; omega)
          rw [show first2 + 1 + j = first2 + (j + 1) by omega]
          simpa using this)
      simp only [List.length_cons, lexLoop, hx, hy]
      by_cases h1 : x < y
      · have : List.Lex (fun x y : T => x < y) (x :: xs) (y :: ys) := List.Lex.rel h1
        rw [if_pos h1]
        simp [this]
      · rw [if_neg h1]
        by_cases h2 : y < x
        · have : ¬ List.Lex (fun x y : T => x < y) (x :: xs) (y :: ys) := by
            intro hlex
            cases hlex with
            | cons h => exact lt_irrefl _ h2
            | rel h => exact h1 h
          rw [if_pos h2]
          simp [this]
        · have hxy : x = y := le_antisymm (not_lt.mp h2) (not_lt.mp h1)
          subst hxy
          rw [if_neg h2, hrec]
          congr 1
          exact decide_eq_decide.mpr List.Lex.cons_iff.symm

/-- The operator `operator==` on two vectors that hold the sequences `xs` and `ys` decides
`xs = ys`. -/
theorem SimpleVector.op_eq_spec [DecidableEq T] (a b : SimpleVector T) (xs ys : List T)
    (ha : a.Holds xs) (hb : b.Holds ys) : a.op_eq b = .ok (decide (xs = ys)) := by
  by_cases hsz : a.size_ = b.size_
  · have hlen : xs.length = ys.length := by rw [← ha.1, ← hb.1, hsz]
    have hloop := equalLoop_spec a.smart_ptr_ b.smart_ptr_ xs ys 0 0
      (fun j hj => by rw [Nat.zero_add]; exact ha.getElem? j hj)
      (fun j hj => by rw [Nat.zero_add]; exact hb.getElem? j hj) hlen
    unfold SimpleVector.op_eq
    rw [if_pos (show a.GetSize = b.GetSize from hsz)]
    simp only [std_equal, SimpleVector.begin_, SimpleVector.end_, Nat.not_lt_zero, if_false,
      Nat.sub_zero, ha.1]
    exact hloop
  · have hne : xs ≠ ys := by
      intro h
      apply hsz
      rw [ha.1, hb.1, h]
    simp only [SimpleVector.op_eq, SimpleVector.GetSize, if_neg hsz]
    simp [hne]

/-- The operator `operator<` on two vectors that hold the sequences `xs` and `ys` decides
whether `xs` is lexicographically less than `ys`. -/
theorem SimpleVector.op_lt_spec [LinearOrder T] (a b : SimpleVector T) (xs ys : List T)
    (ha : a.Holds xs) (hb : b.Holds ys) :
    a.op_lt b = .ok (decide (List.Lex (fun x y : T => x < y) xs ys)) := by
  have hloop := lexLoop_spec a.smart_ptr_ b.smart_ptr_ xs ys 0 0
    (fun j hj => by rw [Nat.zero_add]; exact ha.getElem? j hj)
    (fun j hj => by rw [Nat.zero_add]; exact hb.getElem? j hj)
  simp only [SimpleVector.op_lt, std_lexicographical_compare, SimpleVector.begin_,
    SimpleVector.end_, Nat.not_lt_zero, if_false, Nat.sub_zero, ha.1, hb.1]
  exact hloop

end CompareLemmas

section CopyLemmas

variable {T : Type}

/-- What the copy constructor does to a vector whose `size_` slots lie inside its buffer:
the new buffer owns `size_` slots, which hold the first `size_` slots of the source, and
`capacity_` is the one of the source. -/
theorem SimpleVector.copy_spec [Inhabited T] (v : SimpleVector T)
    (h : v.size_ ≤ v.smart_ptr_.length) :
    SimpleVector.copy v = .ok ⟨v.smart_ptr_.take v.size_, v.size_, v.capacity_⟩ := by
  obtain ⟨f, hf, hflen, _⟩ :=
    fillLoop_spec (default : T) v.size_ 0 (ArrayPtr.alloc v.size_)
      (by rw [ArrayPtr.length_alloc]; omega)
  rw [ArrayPtr.length_alloc] at hflen
  obtain ⟨r, hr, hrlen, hget⟩ :=
    std_copy_zero_spec v.smart_ptr_ f v.size_ h (by omega)
  have hrtake : r = v.smart_ptr_.take v.size_ := by
    apply List.ext_getElem?
    intro j
    rw [hget j, List.getElem?_take]
    by_cases h1 : j < v.size_
    · rw [if_pos h1, if_pos h1]
    · rw [if_neg h1, if_neg h1, List.getElem?_eq_none (by omega)]
  simp only [SimpleVector.copy, SimpleVector.ofSize, SimpleVector.ofFill,
    SimpleVector.GetSize, hf, hr, SimpleVector.swap, hrtake]

/-- The copy of a vector that holds the sequence `xs` holds `xs`. -/
theorem SimpleVector.copy_Holds [Inhabited T] (v : SimpleVector T) (xs : List T)
    (h : v.Holds xs) :
    ∃ c, SimpleVector.copy v = .ok c ∧ c.Holds xs ∧ c.size_ = v.size_ ∧
      c.capacity_ = v.capacity_ ∧ c.smart_ptr_.length = v.size_ := by
  have hle := h.size_le
  refine ⟨_, SimpleVector.copy_spec v hle, ⟨h.1, ?_⟩, rfl, rfl, ?_⟩
  · show (v.smart_ptr_.take v.size_).take v.size_ = _
    rw [List.take_take, Nat.min_self]
    exact h.2
  · show (v.smart_ptr_.take v.size_).length = v.size_
    rw [List.length_take]; omega

/-- What `PushBack` does to the copy of a vector with spare capacity: the copy owns only
`size_` slots while its `capacity_` is larger, so the new element is written outside of
the buffer. -/
theorem SimpleVector.copy_PushBack_overrun [Inhabited T] (v : SimpleVector T) (item : T)
    (h : v.size_ ≤ v.smart_ptr_.length) (hspare : v.size_ < v.capacity_) :
    ∃ c, SimpleVector.copy v = .ok c ∧ c.smart_ptr_.length = v.size_ ∧
      c.capacity_ = v.capacity_ ∧
      c.PushBack (.object item) = .error (.out_of_bounds v.size_ v.size_) := by
  have hlen : (v.smart_ptr_.take v.size_).length = v.size_ := by
    rw [List.length_take]; omega
  refine ⟨_, SimpleVector.copy_spec v h, hlen, rfl, ?_⟩
  simp only [SimpleVector.PushBack, SimpleVector.PushBack.grow, Ref.read,
    if_neg (Nat.ne_of_lt hspare), SimpleVector.end_, ArrayPtr.store, hlen,
    if_neg (Nat.lt_irrefl _)]

end CopyLemmas

section MoveLemmas

variable {T : Type}

/-- The defaulted move assignment copies `size_` and `capacity_` of the source to the
object and leaves them as they were in the source. -/
theorem SimpleVector.move_assign_fields (a b : SimpleVector T) :
    (a.move_assign b).1 = b ∧
    (a.move_assign b).2.size_ = b.size_ ∧ (a.move_assign b).2.capacity_ = b.capacity_ :=
  ⟨rfl, rfl, rfl⟩

end MoveLemmas

section ReferenceLemmas

variable {T : Type}

/-- What `PushBack` of an element of the vector itself does to a full well-formed vector:
the reallocation releases the buffer the reference points into before `item` is read. -/
theorem SimpleVector.PushBack_element_full (v : SimpleVector T) (j : Nat) (h : v.WF)
    (hfull : v.size_ = v.capacity_) :
    v.PushBack (.element j) = .error (.use_after_free j) := by
  obtain ⟨hlen, hle⟩ := h
  obtain ⟨r, hr, _, _⟩ :=
    std_copy_zero_spec v.smart_ptr_ (ArrayPtr.alloc (v.size_ + 1)) v.size_
      (by omega) (by simp [ArrayPtr.length_alloc])
  simp only [SimpleVector.PushBack, SimpleVector.PushBack.grow, if_pos hfull, hr, Ref.read,
    decide_eq_true hfull, if_true]

/-- What `PushBack` of an element of the vector itself does to a well-formed vector with
spare capacity: no reallocation, the element is read from the buffer and appended. -/
theorem SimpleVector.PushBack_element_spare (v : SimpleVector T) (j : Nat) (x : Option T)
    (h : v.WF) (hspare : v.size_ < v.capacity_) (hx : v.smart_ptr_[j]? = some x) :
    ∃ v1, v.PushBack (.element j) = .ok v1 ∧ v1.WF ∧ v1.size_ = v.size_ + 1 ∧
      v1.capacity_ = v.capacity_ ∧ v1.elems = v.elems ++ [x] := by
  obtain ⟨hlen, hle⟩ := h
  obtain ⟨hj, hjx⟩ := List.getElem?_eq_some_iff.mp hx
  have hlt : v.size_ < v.smart_ptr_.length := by omega
  have hne : ¬ v.size_ = v.capacity_ := Nat.ne_of_lt hspare
  refine ⟨⟨v.smart_ptr_.set v.size_ x, v.size_ + 1, v.capacity_⟩, ?_, ?_, rfl, rfl, ?_⟩
  · simp only [SimpleVector.PushBack, SimpleVector.PushBack.grow, if_neg hne, Ref.read,
      decide_eq_false hne, SimpleVector.end_, ArrayPtr.load_ok v.smart_ptr_ j hj,
      List.get_eq_getElem, hjx, ArrayPtr.store_ok v.smart_ptr_ v.size_ _ hlt]
    rfl
  · exact ⟨by simp [hlen], by show v.size_ + 1 ≤ v.capacity_; omega⟩
  · apply List.ext_getElem?
    intro i
    rw [SimpleVector.getElem?_elems, List.getElem?_append, SimpleVector.getElem?_elems]
    simp only [SimpleVector.elems, List.length_take, List.getElem?_set]
    have h3 : min v.size_ v.smart_ptr_.length = v.size_ := by omega
    by_cases h1 : i < v.size_
    · have h2 : ¬ v.size_ = i := by omega
      simp [h1, h2, h3, Nat.lt_succ_of_lt h1]
    · by_cases h2 : i = v.size_
      · subst h2
        simp [h3, hlt]
      · have h4 : ¬ i < v.size_ + 1 := by omega
        simp [h3, h4, h1]
        omega

/-- What `Insert` of an element of the vector itself does to a full well-formed vector:
the reallocation releases the buffer the reference points into before `value` is read. -/
theorem SimpleVector.Insert_element_full (v : SimpleVector T) (pos j : Nat) (h : v.WF)
    (hfull : v.capacity_ = v.size_) (hpos : pos ≤ v.size_) :
    v.Insert pos (.element j) = .error (.use_after_free j) := by
  obtain ⟨g, hg, hglen, hgsize, hgcap, _, _⟩ := SimpleVector.Insert_grow_spec v h
  obtain ⟨r, hr, _, _⟩ :=
    copyBackwardLoop_spec (v.size_ - pos) v.size_ (v.size_ + 1) g.smart_ptr_
      (by omega) (by omega) (by omega)
  simp only [SimpleVector.Insert, hg, SimpleVector.begin_, SimpleVector.end_, hgsize,
    std_copy_backward, Ref.read, Nat.zero_add, Nat.sub_zero, if_neg (Nat.not_lt.mpr hpos), hr,
    decide_eq_true hfull, if_true]

end ReferenceLemmas

open SimpleVector

section Claims

variable {T : Type}

/-- C1: the claim is that `GetSize() <= GetCapacity()` holds after every step of every
run.  The code breaks it on two paths.  `Resize(3)` on the vector built from `{1, 2}`
(size 2, capacity 2) takes the growth branch with `3 < 2 * 2`, keeps `capacity_ = 2`,
allocates a buffer of 2 slots and default-fills slot 2 of it, outside of the buffer,
before it sets `size_ = 3`.  `Erase(end())` on the default-constructed vector decrements
`size_ = 0`, which wraps around to `SIZE_MAX` while the capacity stays `0`. -/
theorem C1_size_le_capacity_broken :
    (∃ v : SimpleVector Nat, ofList [1, 2] = .ok v ∧ v.GetSize ≤ v.GetCapacity ∧
      v.Resize 3 = .error (.out_of_bounds 2 2)) ∧
    (∃ v1 : SimpleVector Nat, ∃ it,
      (empty : SimpleVector Nat).Erase (empty : SimpleVector Nat).end_ = .ok (v1, it) ∧
      v1.GetSize = SIZE_MAX ∧ v1.GetCapacity = 0 ∧ ¬ v1.GetSize ≤ v1.GetCapacity) :=
  ⟨⟨⟨[some 1, some 2], 2, 2⟩, rfl, by decide, rfl⟩,
   ⟨⟨[], SIZE_MAX, 0⟩, SIZE_MAX, rfl, rfl, rfl, by decide⟩⟩

/-- C2: starting from the default-constructed vector, `PushBack` of every element of a
list `xs` in order succeeds and yields a vector of size `length xs` whose element at every
index `i < length xs`, read with `operator[]`, is `xs[i]`. -/
theorem C2_PushBack_run_reads_back (xs : List T) :
    ∃ v, PushBackAll xs (empty : SimpleVector T) = .ok v ∧ v.GetSize = xs.length ∧
      ∀ i (hi : i < xs.length), v.subscript i = .ok (some (xs.get ⟨i, hi⟩)) := by
  obtain ⟨v, hv, _, hsz, hel⟩ := PushBackAll_spec xs (empty : SimpleVector T) WF_empty
  refine ⟨v, hv, ?_, fun i hi => ?_⟩
  · show v.size_ = xs.length
    rw [hsz]; show 0 + xs.length = xs.length; omega
  · apply subscript_of_elems
    rw [hel, elems_empty, List.nil_append, List.getElem?_map, List.getElem?_eq_getElem hi]
    rfl

/-- C4: the claim is that `Insert(begin() + i, x)` yields `take i s ++ [x] ++ drop i s`.
`value` is a reference and is read only after the elements have been shifted: on the
vector built from `{1, 2, 3}` after `Reserve(4)`, `Insert(begin(), v[1])` first shifts the
elements to `[1, 1, 2, 3]` and then reads `v[1]`, which now is 1, so the result is
`[1, 1, 2, 3]` and not `[2, 1, 2, 3]`.  Without the `Reserve` the vector is full, and
`Insert(end(), v[1])` reads `value` from the buffer that the reallocation has released. -/
theorem C4_Insert_own_element :
    ∃ v : SimpleVector Nat, ofList [1, 2, 3] = .ok v ∧
      (∃ w, v.Reserve 4 = .ok w ∧ w.WF ∧ w.elems = [some 1, some 2, some 3] ∧
        w.subscript 1 = .ok (some 2) ∧
        ∃ w1, w.Insert (w.begin_ + 0) (.element 1) = .ok (w1, w1.begin_ + 0) ∧
          w1.elems = [some 1, some 1, some 2, some 3] ∧
          w1.elems ≠ List.take 0 w.elems ++ [some 2] ++ List.drop 0 w.elems ∧
          w1.subscript (w1.begin_ + 0) = .ok (some 1)) ∧
      v.WF ∧ v.Insert v.end_ (.element 1) = .error (.use_after_free 1) :=
  ⟨⟨[some 1, some 2, some 3], 3, 3⟩, rfl,
    ⟨⟨[some 1, some 2, some 3, none], 3, 4⟩, rfl, by decide, rfl, rfl,
      ⟨[some 1, some 1, some 2, some 3], 4, 4⟩, rfl, rfl, by decide, rfl⟩,
    by decide, rfl⟩

end Claims

section ClaimsErase

variable {T : Type}

/-- C6: on a well-formed vector holding the sequence `s`, `Erase(begin() + i)` with
`i < size` succeeds, yields `s` without its `i`-th element, decreases the size by one,
keeps the capacity and returns the position at index `i`, which is `end()` of the result
when the erased element was the last one. -/
theorem C6_Erase_sequence (v : SimpleVector T) (i : Nat) (h : v.WF) (hi : i < v.GetSize) :
    ∃ v1, v.Erase (v.begin_ + i) = .ok (v1, v1.begin_ + i) ∧
      v1.elems = v.elems.eraseIdx i ∧
      (∀ j, j < i → v1.elems[j]? = v.elems[j]?) ∧
      (∀ j, i ≤ j → v1.elems[j]? = v.elems[j + 1]?) ∧
      v1.GetSize + 1 = v.GetSize ∧
      v1.GetCapacity = v.GetCapacity ∧
      (i + 1 = v.GetSize → v1.begin_ + i = v1.end_) := by
  obtain ⟨v1, h1, _, hsz, hcap, hel⟩ := Erase_spec v i h hi
  refine ⟨v1, ?_, hel, fun j hj => ?_, fun j hj => ?_, hsz, hcap, fun hlast => ?_⟩
  · show v.Erase (0 + i) = .ok (v1, 0 + i)
    rw [Nat.zero_add]; exact h1
  · rw [hel, List.getElem?_eraseIdx, if_pos hj]
  · rw [hel, List.getElem?_eraseIdx, if_neg (Nat.not_lt.mpr hj)]
  · change i + 1 = v.size_ at hlast
    show 0 + i = v1.size_
    omega

/-- C6, at `Erase(begin())` on the vector `[1, 2, 3]`: the result is `[2, 3]` of size 2. -/
theorem C6_Erase_sequence_witness :
    (⟨[some 1, some 2, some 3], 3, 3⟩ : SimpleVector Nat).WF ∧
    0 < (⟨[some 1, some 2, some 3], 3, 3⟩ : SimpleVector Nat).GetSize ∧
    ∃ v1, (⟨[some 1, some 2, some 3], 3, 3⟩ : SimpleVector Nat).Erase
        ((⟨[some 1, some 2, some 3], 3, 3⟩ : SimpleVector Nat).begin_ + 0)
          = .ok (v1, v1.begin_ + 0) ∧
      v1.elems = [some 2, some 3] ∧
      (∀ j, j < 0 → v1.elems[j]? = [some 1, some 2, some 3][j]?) ∧
      (∀ j, 0 ≤ j → v1.elems[j]? = [some 1, some 2, some 3][j + 1]?) ∧
      v1.GetSize + 1 = 3 ∧
      v1.GetCapacity = 3 ∧
      (0 + 1 = 3 → v1.begin_ + 0 = v1.end_) :=
  ⟨by decide, by decide,
    C6_Erase_sequence ⟨[some 1, some 2, some 3], 3, 3⟩ 0 (by decide) (by decide)⟩

/-- C7: on a well-formed vector `Reserve(c)` succeeds, keeps the size and the sequence of
elements, never decreases the capacity and leaves the capacity at the maximum of the
previous capacity and `c`: the vector is unchanged when `c <= capacity`, and the capacity
is exactly `c` otherwise. -/
theorem C7_Reserve_frame (v : SimpleVector T) (c : Nat) (h : v.WF) :
    ∃ v1, v.Reserve c = .ok v1 ∧ v1.GetSize = v.GetSize ∧ v1.elems = v.elems ∧
      v.GetCapacity ≤ v1.GetCapacity ∧ v1.GetCapacity = max v.GetCapacity c ∧
      (c ≤ v.GetCapacity → v1 = v) ∧ (v.GetCapacity < c → v1.GetCapacity = c) := by
  obtain ⟨v1, h1, _, hsz, hcap, hel⟩ := Reserve_spec v c h
  refine ⟨v1, h1, hsz, hel, ?_, hcap, fun hc => ?_, fun hc => ?_⟩
  · show v.capacity_ ≤ v1.capacity_
    rw [hcap]; exact Nat.le_max_left _ _
  · change c ≤ v.capacity_ at hc
    simp only [Reserve, if_pos hc] at h1
    cases h1
    rfl
  · change v.capacity_ < c at hc
    show v1.capacity_ = c
    rw [hcap]; exact Nat.max_eq_right (Nat.le_of_lt hc)

/-- C7, at `Reserve(5)` on the vector `[1, 2]` of capacity 3. -/
theorem C7_Reserve_frame_witness :
    (⟨[some 1, some 2, none], 2, 3⟩ : SimpleVector Nat).WF ∧
    ∃ v1, (⟨[some 1, some 2, none], 2, 3⟩ : SimpleVector Nat).Reserve 5 = .ok v1 ∧
      v1.GetSize = 2 ∧ v1.elems = [some 1, some 2] ∧
      3 ≤ v1.GetCapacity ∧ v1.GetCapacity = max 3 5 ∧
      (5 ≤ 3 → v1 = (⟨[some 1, some 2, none], 2, 3⟩ : SimpleVector Nat)) ∧
      (3 < 5 → v1.GetCapacity = 5) :=
  ⟨by decide, C7_Reserve_frame ⟨[some 1, some 2, none], 2, 3⟩ 5 (by decide)⟩

/-- C8: the claim is that `Resize(newSize)` with `newSize > capacity` always ends with
capacity and size equal to `newSize`.  On the vector built by `SimpleVector(2)` (size 2,
capacity 2) `Resize(3)` has `3 > 2` but not `3 >= 2 * 2`: the capacity is kept at 2, the
new buffer has 2 slots and the default-fill of `[2, 3)` writes slot 2, outside of it. -/
theorem C8_Resize_between_capacity_and_double :
    ∃ v : SimpleVector Nat, ofSize 2 = .ok v ∧ v.WF ∧ v.GetSize = 2 ∧ v.GetCapacity = 2 ∧
      v.Resize 3 = .error (.out_of_bounds 2 2) :=
  ⟨⟨[some 0, some 0], 2, 2⟩, rfl, by decide, rfl, rfl, rfl⟩

/-- C9: the claim is that after a growing `Resize` every new element is the default value.
On the vector built from `{1, 2, 3}`, `PopBack()` followed by `Resize(3)` grows the size
from 2 to 3 within the capacity 3 and writes no slot: the new element at index 2 is the
stale 3, not the default value 0. -/
theorem C9_Resize_within_capacity_keeps_stale :
    ∃ v : SimpleVector Nat, ofList [1, 2, 3] = .ok v ∧
      v.PopBack.GetSize = 2 ∧
      ∃ v1, v.PopBack.Resize 3 = .ok v1 ∧ v1.GetSize = 3 ∧
        v1.subscript 2 = .ok (some 3) ∧ v1.subscript 2 ≠ .ok (some default) :=
  ⟨⟨[some 1, some 2, some 3], 3, 3⟩, rfl, rfl, ⟨[some 1, some 2, some 3], 3, 3⟩, rfl, rfl, rfl,
    fun h => by injection h with h; injection h with h; exact absurd h (by decide)⟩

/-- C10: on a well-formed vector `Resize(newSize)` with `newSize <= size` succeeds, sets
the size to `newSize`, keeps the capacity and the elements at `[0, newSize)`, and leaves
the default value in every slot of `[newSize, old size)`. -/
theorem C10_Resize_shrink [Inhabited T] (v : SimpleVector T) (newSize : Nat) (h : v.WF)
    (hn : newSize ≤ v.GetSize) :
    ∃ v1, v.Resize newSize = .ok v1 ∧ v1.GetSize = newSize ∧
      v1.GetCapacity = v.GetCapacity ∧ v1.elems = v.elems.take newSize ∧
      ∀ j, newSize ≤ j → j < v.GetSize → v1.subscript j = .ok (some default) := by
  obtain ⟨v1, h1, _, hsz, hcap, hel, hget⟩ := Resize_shrink_spec v newSize h hn
  refine ⟨v1, h1, hsz, hcap, hel, fun j hj1 hj2 => ?_⟩
  apply subscript_of_getElem?
  rw [hget j, if_pos ⟨hj1, hj2⟩]

/-- C10, at `Resize(0)` on the vector `[1, 2, 3]`: size 0, capacity still 3. -/
theorem C10_Resize_shrink_witness :
    (⟨[some 1, some 2, some 3], 3, 3⟩ : SimpleVector Nat).WF ∧
    0 ≤ (⟨[some 1, some 2, some 3], 3, 3⟩ : SimpleVector Nat).GetSize ∧
    ∃ v1, (⟨[some 1, some 2, some 3], 3, 3⟩ : SimpleVector Nat).Resize 0 = .ok v1 ∧
      v1.GetSize = 0 ∧ v1.GetCapacity = 3 ∧ v1.elems = [] ∧
      ∀ j, 0 ≤ j → j < 3 → v1.subscript j = .ok (some default) :=
  ⟨by decide, by decide,
    C10_Resize_shrink ⟨[some 1, some 2, some 3], 3, 3⟩ 0 (by decide) (by decide)⟩

end ClaimsErase

section ClaimsCopyMove

variable {T : Type}

/-- C11: the checked access `At(index)` throws `std::out_of_range` if and only if
`index >= size`; on a well-formed vector it succeeds for every `index < size` and returns
the element at that index, the one `operator[]` reads, so `At(size - 1)` succeeds on every
non-empty vector. -/
theorem C11_At_checked (v : SimpleVector T) (index : Nat) (h : v.WF) :
    (v.At index = .error .out_of_range ↔ index ≥ v.GetSize) ∧
    (index < v.GetSize →
      ∃ x, v.At index = .ok x ∧ v.elems[index]? = some x ∧ v.subscript index = .ok x) ∧
    (0 < v.GetSize → ∃ x, v.At (v.GetSize - 1) = .ok x) := by
  obtain ⟨hlen, hle⟩ := h
  have hok : ∀ i, i < v.size_ →
      ∃ x, v.At i = .ok x ∧ v.elems[i]? = some x ∧ v.subscript i = .ok x := by
    intro i hi
    have hb : i < v.smart_ptr_.length := by omega
    refine ⟨v.smart_ptr_.get ⟨i, hb⟩, ?_, ?_, ?_⟩
    · simp only [At, if_neg (show ¬ i ≥ v.size_ by omega), ArrayPtr.load_ok _ i hb]
    · rw [getElem?_elems, if_pos hi, List.getElem?_eq_getElem hb]; rfl
    · simp only [subscript, ArrayPtr.load_ok _ i hb]
  refine ⟨⟨fun herr => ?_, fun hge => ?_⟩, fun hi => hok index hi, fun hpos => ?_⟩
  · by_contra hlt
    obtain ⟨x, hx, _⟩ := hok index (Nat.lt_of_not_ge hlt)
    rw [hx] at herr
    cases herr
  · simp only [At, if_pos (show index ≥ v.size_ from hge)]
  · obtain ⟨x, hx, _⟩ := hok (v.size_ - 1) (by change 0 < v.size_ at hpos; omega)
    exact ⟨x, hx⟩

/-- C11, at index 2 of the vector `[1, 2, 3]`. -/
theorem C11_At_checked_witness :
    (⟨[some 1, some 2, some 3], 3, 3⟩ : SimpleVector Nat).WF ∧
    (((⟨[some 1, some 2, some 3], 3, 3⟩ : SimpleVector Nat).At 2 = .error .out_of_range ↔
      2 ≥ (⟨[some 1, some 2, some 3], 3, 3⟩ : SimpleVector Nat).GetSize) ∧
    (2 < (⟨[some 1, some 2, some 3], 3, 3⟩ : SimpleVector Nat).GetSize →
      ∃ x, (⟨[some 1, some 2, some 3], 3, 3⟩ : SimpleVector Nat).At 2 = .ok x ∧
        (⟨[some 1, some 2, some 3], 3, 3⟩ : SimpleVector Nat).elems[2]? = some x ∧
        (⟨[some 1, some 2, some 3], 3, 3⟩ : SimpleVector Nat).subscript 2 = .ok x) ∧
    (0 < (⟨[some 1, some 2, some 3], 3, 3⟩ : SimpleVector Nat).GetSize →
      ∃ x, (⟨[some 1, some 2, some 3], 3, 3⟩ : SimpleVector Nat).At (3 - 1) = .ok x)) :=
  ⟨by decide, C11_At_checked ⟨[some 1, some 2, some 3], 3, 3⟩ 2 (by decide)⟩

/-- C12: for a vector `v` that holds a sequence `xs`, copy construction succeeds and yields
a vector that compares equal to `v` under `operator==`, with the size and the capacity of
`v` and the same sequence; copy assignment of `v` to any other vector yields that same
vector. -/
theorem C12_copy_equal [Inhabited T] [DecidableEq T] (v : SimpleVector T) (xs : List T)
    (h : v.Holds xs) :
    ∃ c, v.copy = .ok c ∧ c.op_eq v = .ok true ∧ c.GetSize = v.GetSize ∧
      c.GetCapacity = v.GetCapacity ∧ c.elems = v.elems ∧
      ∀ dst : SimpleVector T, dst.copy_assign v = .ok c := by
  obtain ⟨c, hc, hhold, hsz, hcap, _⟩ := copy_Holds v xs h
  refine ⟨c, hc, ?_, hsz, hcap, ?_, fun dst => ?_⟩
  · rw [op_eq_spec c v xs xs hhold h]
    simp
  · rw [hhold.2, h.2]
  · simp only [copy_assign, hc, swap]

/-- C12, at the vector `[1, 2]` of capacity 3. -/
theorem C12_copy_equal_witness :
    (⟨[some 1, some 2, none], 2, 3⟩ : SimpleVector Nat).Holds [1, 2] ∧
    ∃ c, (⟨[some 1, some 2, none], 2, 3⟩ : SimpleVector Nat).copy = .ok c ∧
      c.op_eq ⟨[some 1, some 2, none], 2, 3⟩ = .ok true ∧ c.GetSize = 2 ∧
      c.GetCapacity = 3 ∧ c.elems = [some 1, some 2] ∧
      ∀ dst : SimpleVector Nat, dst.copy_assign ⟨[some 1, some 2, none], 2, 3⟩ = .ok c :=
  ⟨by decide, C12_copy_equal ⟨[some 1, some 2, none], 2, 3⟩ [1, 2] (by decide)⟩

/-- C13: the claim is that `capacity_` always is the number of slots of the buffer, so
that `PushBack` on a copy with `size < capacity` writes inside the buffer.  The copy
constructor builds `vec_copy` with `other.GetSize()` slots and then only overwrites
`vec_copy.capacity_` with `other.capacity_`: the copy of the vector `{1, 2, 3}` after
`PopBack()` owns 2 slots with capacity 3, and `PushBack(4)` on it writes slot 2, outside of
the buffer. -/
theorem C13_copy_capacity_exceeds_buffer :
    ∃ v : SimpleVector Nat, ofList [1, 2, 3] = .ok v ∧ v.PopBack.WF ∧
      ∃ c, v.PopBack.copy = .ok c ∧ c.GetSize = 2 ∧ c.GetCapacity = 3 ∧
        c.smart_ptr_.length = 2 ∧ ¬ c.WF ∧
        c.PushBack (.object 4) = .error (.out_of_bounds 2 2) :=
  ⟨⟨[some 1, some 2, some 3], 3, 3⟩, rfl, by decide, ⟨[some 1, some 2], 2, 3⟩, rfl, rfl, rfl,
    rfl, by decide, rfl⟩

/-- C14: move construction yields a vector with the former size, capacity, buffer and
elements of the source and leaves the source with size 0 and capacity 0, well formed and
usable (a `PushBack` on it succeeds). -/
theorem C14_move_construction (v : SimpleVector T) :
    (move v).1.GetSize = v.GetSize ∧ (move v).1.GetCapacity = v.GetCapacity ∧
    (move v).1.elems = v.elems ∧ (move v).1 = v ∧
    (move v).2.GetSize = 0 ∧ (move v).2.GetCapacity = 0 ∧ (move v).2.WF ∧
    (move v).2.IsEmpty = true ∧
    ∀ x : T, ∃ v1, (move v).2.PushBack (.object x) = .ok v1 ∧ v1.elems = [some x] := by
  refine ⟨rfl, rfl, rfl, rfl, rfl, rfl, WF_empty, rfl, fun x => ?_⟩
  obtain ⟨v1, h1, _, _, _, hel⟩ := PushBack_spec (move v).2 x WF_empty
  exact ⟨v1, h1, hel⟩

end ClaimsCopyMove

section ClaimsCompare

variable {T : Type}

/-- C15: for vectors `a`, `b`, `c` that hold the sequences `xs`, `ys`, `zs`, `a == b` is
defined and true exactly when `xs = ys`, that is when the sizes are equal and the elements
over `[0, size)` are pairwise equal; any vector with the size and the first `size` slots of
`a` compares like `a`, whatever its capacity and its other slots; `==` is reflexive,
symmetric and transitive, and `a != b` is its negation. -/
theorem C15_op_eq_elementwise [DecidableEq T] (a b c : SimpleVector T) (xs ys zs : List T)
    (ha : a.Holds xs) (hb : b.Holds ys) (hc : c.Holds zs) :
    a.op_eq b = .ok (decide (xs = ys)) ∧
    (a.op_eq b = .ok true ↔
      a.GetSize = b.GetSize ∧ ∀ i, i < a.GetSize → a.subscript i = b.subscript i) ∧
    (∀ a2 : SimpleVector T, a2.GetSize = a.GetSize → a2.elems = a.elems →
      a2.op_eq b = a.op_eq b) ∧
    a.op_eq a = .ok true ∧
    (a.op_eq b = .ok true → b.op_eq a = .ok true) ∧
    (a.op_eq b = .ok true → b.op_eq c = .ok true → a.op_eq c = .ok true) ∧
    (a.op_ne b = .ok true ↔ a.op_eq b = .ok false) ∧
    (a.op_ne b = .ok false ↔ a.op_eq b = .ok true) := by
  have hab := op_eq_spec a b xs ys ha hb
  have hba := op_eq_spec b a ys xs hb ha
  have hbc := op_eq_spec b c ys zs hb hc
  have hac := op_eq_spec a c xs zs ha hc
  have haa := op_eq_spec a a xs xs ha ha
  have hsub : ∀ (v : SimpleVector T) (l : List T), v.Holds l → ∀ i (hi : i < l.length),
      v.subscript i = .ok (some (l.get ⟨i, hi⟩)) :=
    fun v l hv i hi => subscript_of_getElem? v i _ (hv.getElem? i hi)
  refine ⟨hab, ?_, ?_, ?_, ?_, ?_, ?_, ?_⟩
  · rw [hab]
    constructor
    · intro h
      have hxy : xs = ys := of_decide_eq_true (by injection h)
      subst hxy
      refine ⟨by show a.size_ = b.size_; rw [ha.1, hb.1], fun i hi => ?_⟩
      have hi2 : i < xs.length := by rw [← ha.1]; exact hi
      rw [hsub a xs ha i hi2, hsub b xs hb i hi2]
    · rintro ⟨hsz, hel⟩
      have hlen : xs.length = ys.length := by rw [← ha.1, ← hb.1]; exact hsz
      have hxy : xs = ys := by
        apply List.ext_get hlen
        intro i h1 h2
        have h3 := hel i (by show i < a.size_; rw [ha.1]; exact h1)
        rw [hsub a xs ha i h1, hsub b ys hb i h2] at h3
        injection h3 with h3
        injection h3
      rw [decide_eq_true hxy]
  · intro a2 hsz hel
    have ha2 : a2.Holds xs := ⟨by rw [← ha.1]; exact hsz, by rw [hel]; exact ha.2⟩
    rw [op_eq_spec a2 b xs ys ha2 hb, hab]
  · rw [haa]; simp
  · rw [hab, hba]
    intro h
    have hxy : xs = ys := of_decide_eq_true (by injection h)
    rw [decide_eq_true hxy.symm]
  · rw [hab, hbc, hac]
    intro h1 h2
    have hxy : xs = ys := of_decide_eq_true (by injection h1)
    have hyz : ys = zs := of_decide_eq_true (by injection h2)
    rw [decide_eq_true (hxy.trans hyz)]
  · simp only [op_ne, hab]
    by_cases hxy : xs = ys <;> simp [hxy]
  · simp only [op_ne, hab]
    by_cases hxy : xs = ys <;> simp [hxy]

/-- C15, at the vectors `[1, 2]` of capacity 3, `[1, 2]` of capacity 2 and `[1, 2]` of
capacity 4 with another spare slot. -/
theorem C15_op_eq_elementwise_witness :
    (⟨[some 1, some 2, none], 2, 3⟩ : SimpleVector Nat).Holds [1, 2] ∧
    (⟨[some 1, some 2], 2, 2⟩ : SimpleVector Nat).Holds [1, 2] ∧
    (⟨[some 1, some 2, some 7, none], 2, 4⟩ : SimpleVector Nat).Holds [1, 2] ∧
    (⟨[some 1, some 2, none], 2, 3⟩ : SimpleVector Nat).op_eq ⟨[some 1, some 2], 2, 2⟩
      = .ok true :=
  ⟨by decide, by decide, by decide,
    (C15_op_eq_elementwise ⟨[some 1, some 2, none], 2, 3⟩ ⟨[some 1, some 2], 2, 2⟩
      ⟨[some 1, some 2, some 7, none], 2, 4⟩ [1, 2] [1, 2] [1, 2]
      (by decide) (by decide) (by decide)).1⟩

end ClaimsCompare

section ClaimsOrder

variable {T : Type}

/-- C16: for vectors `a`, `b`, `c` over a linearly ordered element type that hold the
sequences `xs`, `ys`, `zs`, `a < b` is defined and true exactly when `xs` is
lexicographically less than `ys`; `<` is irreflexive, asymmetric and transitive, a proper
prefix is less than the longer sequence, and the first differing element decides. -/
theorem C16_op_lt_lexicographic [LinearOrder T] (a b c : SimpleVector T) (xs ys zs : List T)
    (ha : a.Holds xs) (hb : b.Holds ys) (hc : c.Holds zs) :
    a.op_lt b = .ok (decide (List.Lex (fun x y : T => x < y) xs ys)) ∧
    (a.op_lt b = .ok true ↔ List.Lex (fun x y : T => x < y) xs ys) ∧
    a.op_lt a = .ok false ∧
    (a.op_lt b = .ok true → b.op_lt a = .ok false) ∧
    (a.op_lt b = .ok true → b.op_lt c = .ok true → a.op_lt c = .ok true) ∧
    (∀ z l, ys = xs ++ z :: l → a.op_lt b = .ok true) ∧
    (∀ p x s y t, xs = p ++ x :: s → ys = p ++ y :: t → x < y → a.op_lt b = .ok true) := by
  have hab := op_lt_spec a b xs ys ha hb
  have hba := op_lt_spec b a ys xs hb ha
  have hbc := op_lt_spec b c ys zs hb hc
  have hac := op_lt_spec a c xs zs ha hc
  have haa := op_lt_spec a a xs xs ha ha
  have hof : ∀ {p : Prop} [Decidable p],
      (Except.ok (decide p) : Except Failure Bool) = .ok true → p :=
    fun h => of_decide_eq_true (by injection h)
  refine ⟨hab, ?_, ?_, ?_, ?_, ?_, ?_⟩
  · rw [hab]
    exact ⟨fun h => hof h, fun h => by rw [decide_eq_true h]⟩
  · rw [haa, decide_eq_false (IsIrrefl.irrefl xs)]
  · rw [hab, hba]
    intro h
    rw [decide_eq_false (IsAsymm.asymm xs ys (hof h))]
  · rw [hab, hbc, hac]
    intro h1 h2
    rw [decide_eq_true (IsTrans.trans xs ys zs (hof h1) (hof h2))]
  · intro z l hys
    have hlex : List.Lex (fun x y : T => x < y) xs ys := by
      have := List.Lex.append_left (fun x y : T => x < y)
        (List.Lex.nil : List.Lex (fun x y : T => x < y) [] (z :: l)) xs
      rw [List.append_nil, ← hys] at this
      exact this
    rw [hab, decide_eq_true hlex]
  · intro p x s y t hxs hys hxy
    have hlex : List.Lex (fun x y : T => x < y) xs ys := by
      rw [hxs, hys]
      exact List.Lex.append_left _ (List.Lex.rel hxy) p
    rw [hab, decide_eq_true hlex]

/-- C16, at the vectors `[1, 2]`, `[1, 2, 3]` and `[1, 3]`: `[1, 2] < [1, 2, 3]`. -/
theorem C16_op_lt_lexicographic_witness :
    (⟨[some 1, some 2], 2, 2⟩ : SimpleVector Nat).Holds [1, 2] ∧
    (⟨[some 1, some 2, some 3], 3, 3⟩ : SimpleVector Nat).Holds [1, 2, 3] ∧
    (⟨[some 1, some 3], 2, 2⟩ : SimpleVector Nat).Holds [1, 3] ∧
    (⟨[some 1, some 2], 2, 2⟩ : SimpleVector Nat).op_lt ⟨[some 1, some 2, some 3], 3, 3⟩
      = .ok true :=
  ⟨by decide, by decide, by decide,
    (C16_op_lt_lexicographic ⟨[some 1, some 2], 2, 2⟩ ⟨[some 1, some 2, some 3], 3, 3⟩
      ⟨[some 1, some 3], 2, 2⟩ [1, 2] [1, 2, 3] [1, 3]
      (by decide) (by decide) (by decide)).2.2.2.2.2.1 3 [] rfl⟩

/-- C17: for vectors `a`, `b` over a linearly ordered element type that hold sequences, the
derived operators are defined and agree with `<` and `==`: `a <= b` iff `a < b` or
`a == b`, `a > b` iff `b < a`, `a >= b` iff `a > b` or `a == b`, and exactly one of `a < b`,
`a == b`, `b < a` holds. -/
theorem C17_derived_operators [LinearOrder T] (a b : SimpleVector T) (xs ys : List T)
    (ha : a.Holds xs) (hb : b.Holds ys) :
    (∃ r, a.op_le b = .ok r) ∧ (∃ r, a.op_ge b = .ok r) ∧
    (a.op_le b = .ok true ↔ (a.op_lt b = .ok true ∨ a.op_eq b = .ok true)) ∧
    a.op_gt b = b.op_lt a ∧
    (a.op_ge b = .ok true ↔ (a.op_gt b = .ok true ∨ a.op_eq b = .ok true)) ∧
    ((a.op_lt b = .ok true ∧ a.op_eq b = .ok false ∧ b.op_lt a = .ok false) ∨
     (a.op_lt b = .ok false ∧ a.op_eq b = .ok true ∧ b.op_lt a = .ok false) ∨
     (a.op_lt b = .ok false ∧ a.op_eq b = .ok false ∧ b.op_lt a = .ok true)) := by
  have hab := op_lt_spec a b xs ys ha hb
  have hba := op_lt_spec b a ys xs hb ha
  have heq := op_eq_spec a b xs ys ha hb
  simp only [op_le, op_ge, op_gt, hab, hba, heq]
  have htri : List.Lex (fun x y : T => x < y) xs ys ∨ xs = ys ∨
      List.Lex (fun x y : T => x < y) ys xs := IsTrichotomous.trichotomous xs ys
  have hirr : ∀ l : List T, ¬ List.Lex (fun x y : T => x < y) l l :=
    fun l => IsIrrefl.irrefl l
  rcases htri with h | h | h
  · have h2 : ¬ List.Lex (fun x y : T => x < y) ys xs := IsAsymm.asymm xs ys h
    have h3 : xs ≠ ys := fun e => hirr ys (by rw [e] at h; exact h)
    simp [h, h2, h3]
  · subst h
    simp [hirr xs]
  · have h2 : ¬ List.Lex (fun x y : T => x < y) xs ys := IsAsymm.asymm ys xs h
    have h3 : xs ≠ ys := fun e => hirr ys (by rw [e] at h; exact h)
    simp [h, h2, h3]

end ClaimsOrder

section ClaimsRest

variable {T : Type}

/-- C17, at the vectors `[1, 2]` and `[1, 3]`: `[1, 2] <= [1, 3]`. -/
theorem C17_derived_operators_witness :
    (⟨[some 1, some 2], 2, 2⟩ : SimpleVector Nat).Holds [1, 2] ∧
    (⟨[some 1, some 3], 2, 2⟩ : SimpleVector Nat).Holds [1, 3] ∧
    ((⟨[some 1, some 2], 2, 2⟩ : SimpleVector Nat).op_le ⟨[some 1, some 3], 2, 2⟩ = .ok true ↔
      ((⟨[some 1, some 2], 2, 2⟩ : SimpleVector Nat).op_lt ⟨[some 1, some 3], 2, 2⟩ = .ok true ∨
       (⟨[some 1, some 2], 2, 2⟩ : SimpleVector Nat).op_eq ⟨[some 1, some 3], 2, 2⟩
         = .ok true)) :=
  ⟨by decide, by decide,
    (C17_derived_operators ⟨[some 1, some 2], 2, 2⟩ ⟨[some 1, some 3], 2, 2⟩ [1, 2] [1, 3]
      (by decide) (by decide)).2.2.1⟩

/-- C18: on a well-formed non-empty vector holding the sequence `s`, `Erase(end())`
succeeds, only decrements the size: the buffer and the capacity are unchanged, the
sequence is `s` without its last element, and the returned position is the new `end()`. -/
theorem C18_Erase_at_end (v : SimpleVector T) (h : v.WF) (hne : 0 < v.GetSize) :
    ∃ v1, v.Erase v.end_ = .ok (v1, v1.end_) ∧
      v1.elems = v.elems.dropLast ∧
      (∀ j, j < v1.GetSize → v1.elems[j]? = v.elems[j]?) ∧
      v1.GetSize + 1 = v.GetSize ∧
      v1.GetCapacity = v.GetCapacity ∧
      v1.smart_ptr_ = v.smart_ptr_ := by
  obtain ⟨hlen, hle⟩ := h
  change 0 < v.size_ at hne
  have hdecr : decr v.size_ = v.size_ - 1 := by
    unfold decr; rw [if_neg (by omega)]
  have htake : List.take (v.size_ - 1) v.smart_ptr_ = (List.take v.size_ v.smart_ptr_).dropLast := by
    rw [List.dropLast_eq_take, List.length_take, List.take_take]
    congr 1
    omega
  refine ⟨⟨v.smart_ptr_, v.size_ - 1, v.capacity_⟩, ?_, htake, fun j hj => ?_, ?_, rfl, rfl⟩
  · simp only [Erase, end_, if_pos, hdecr]
  · change j < v.size_ - 1 at hj
    rw [getElem?_elems, getElem?_elems]
    show (if j < v.size_ - 1 then _ else _) = _
    rw [if_pos hj, if_pos (by omega)]
  · show v.size_ - 1 + 1 = v.size_
    omega

/-- C18, at `Erase(end())` on the vector `[1, 2, 3]`: the result is `[1, 2]`. -/
theorem C18_Erase_at_end_witness :
    (⟨[some 1, some 2, some 3], 3, 3⟩ : SimpleVector Nat).WF ∧
    0 < (⟨[some 1, some 2, some 3], 3, 3⟩ : SimpleVector Nat).GetSize ∧
    ∃ v1, (⟨[some 1, some 2, some 3], 3, 3⟩ : SimpleVector Nat).Erase
        (⟨[some 1, some 2, some 3], 3, 3⟩ : SimpleVector Nat).end_ = .ok (v1, v1.end_) ∧
      v1.elems = [some 1, some 2] ∧
      (∀ j, j < v1.GetSize → v1.elems[j]? = [some 1, some 2, some 3][j]?) ∧
      v1.GetSize + 1 = 3 ∧
      v1.GetCapacity = 3 ∧
      v1.smart_ptr_ = [some 1, some 2, some 3] :=
  ⟨by decide, by decide,
    C18_Erase_at_end ⟨[some 1, some 2, some 3], 3, 3⟩ (by decide) (by decide)⟩

/-- C19: the claim is that move assignment leaves the source with size 0 and capacity 0.
The operator is defaulted, so `size_` and `capacity_` of the source are copied and not
reset: after `a = std::move(b)` with `a` empty and `b` built from `{1, 2, 3}`, `a` has the
former size, capacity and elements of `b`, and `b` has given up its buffer but still
reports size 3 and capacity 3. -/
theorem C19_move_assign_source_not_reset :
    ∃ b : SimpleVector Nat, ofList [1, 2, 3] = .ok b ∧
      ((empty : SimpleVector Nat).move_assign b).1 = b ∧
      ((empty : SimpleVector Nat).move_assign b).2.GetSize = 3 ∧
      ((empty : SimpleVector Nat).move_assign b).2.GetCapacity = 3 ∧
      ((empty : SimpleVector Nat).move_assign b).2.smart_ptr_.length = 0 ∧
      ¬ ((empty : SimpleVector Nat).move_assign b).2.GetSize = 0 ∧
      ¬ ((empty : SimpleVector Nat).move_assign b).2.GetCapacity = 0 ∧
      (move b).2.GetSize = 0 ∧ (move b).2.GetCapacity = 0 :=
  ⟨⟨[some 1, some 2, some 3], 3, 3⟩, rfl, rfl, rfl, rfl, rfl, by decide, by decide, rfl, rfl⟩

/-- C20: the claim is that `PushBack` on a full vector of capacity `> 0` doubles the
capacity.  The code allocates `size_ + 1` slots and sets `capacity_ = size_ + 1`: on the
vector built from `{1, 2}` (size 2, capacity 2) `PushBack(3)` leaves capacity 3, not 4. -/
theorem C20_PushBack_grows_by_one :
    ∃ v : SimpleVector Nat, ofList [1, 2] = .ok v ∧ v.GetSize = v.GetCapacity ∧
      0 < v.GetCapacity ∧
      ∃ v1, v.PushBack (.object 3) = .ok v1 ∧ v1.GetCapacity = 3 ∧
        ¬ v1.GetCapacity = 2 * v.GetCapacity :=
  ⟨⟨[some 1, some 2], 2, 2⟩, rfl, rfl, by decide, ⟨[some 1, some 2, some 3], 3, 3⟩, rfl, rfl,
    by decide⟩

end ClaimsRest

end SV
